import Mathlib

/-!
# gin-inspector: pagination and JSON flattening

A shallow embedding of `inspector.go`:

* `paginate` and the `/_inspector` branch of the `InspectorStats` handler,
  as a step on the package-level `pagination` value;
* `flattenJSONToValues`, over decoded JSON trees;
* the capture branch and the whole handler `InspectorStats`, as a step on
  the package-level state and the request passed on to `c.Next()`.

Conventions of the embedding.

* Go `int` is a 64-bit two's complement integer: an `Int` in
  `[-2^63, 2^63)`, with `wrap64` applied where the code adds or subtracts.
* `float64` values are `F64`: a finite value held exactly as a rational, the
  two infinities, or NaN.  Rounding is not modelled, so the embedding agrees
  with the code where the float64 operations involved are exact, which
  includes integers of magnitude up to `2^53`.  Signed zero is not
  distinguished.
* A conversion `int(x)` of a float64 that the target type cannot represent
  is implementation-dependent in Go; every function that converts takes the
  platform's choice as the argument `impl`.
* A Go map is an association list with distinct keys, in some iteration
  order.  The order in which `range` visits an object's fields is the order
  of the field list.
* A run-time panic (slice bounds out of range) is `none` for `paginate` and
  `Outcome.fault` for the handler.
* The calls into `strconv`, `net/http` and `encoding/json` are the fields of
  `Lib`, arguments of the handler; `netParseForm` and `netParseMultipartForm`
  give what the two `net/http` calls do to the request body.
-/

namespace Inspector

/-! ## Machine integers and float64 -/

/-- Reduction of an integer to the 64-bit two's complement range. -/
def wrap64 (x : Int) : Int := (x + 2 ^ 63) % 2 ^ 64 - 2 ^ 63

/-- Whether an integer is a value of Go's `int`. -/
def inInt64 (x : Int) : Prop := -(2 ^ 63) ≤ x ∧ x < 2 ^ 63

instance (x : Int) : Decidable (inInt64 x) := by
  unfold inInt64; exact inferInstance

/-- The float64 values, as far as the handler can tell them apart. -/
inductive F64 where
  | fin (q : ℚ)
  | posInf
  | negInf
  | nan
deriving DecidableEq

namespace F64

/-- The conversion `float64(n)` of a slice length. -/
def ofNat (n : Nat) : F64 := fin n

/-- The float64 result for an exact result that overflowed, by sign. -/
def infOfSign (s : ℚ) : F64 :=
  if 0 < s then posInf else if s < 0 then negInf else nan

/-- The float64 subtraction `x - y`. -/
def sub : F64 → F64 → F64
  | fin a, fin b => fin (a - b)
  | fin _, posInf => negInf
  | fin _, negInf => posInf
  | posInf, fin _ => posInf
  | posInf, negInf => posInf
  | negInf, fin _ => negInf
  | negInf, posInf => negInf
  | _, _ => nan

/-- The float64 multiplication `x * y`. -/
def mul : F64 → F64 → F64
  | fin a, fin b => fin (a * b)
  | fin a, posInf => infOfSign a
  | fin a, negInf => infOfSign (-a)
  | posInf, fin b => infOfSign b
  | negInf, fin b => infOfSign (-b)
  | posInf, posInf => posInf
  | negInf, negInf => posInf
  | posInf, negInf => negInf
  | negInf, posInf => negInf
  | _, _ => nan

/-- The float64 division `x / y`; a finite value over zero is an infinity
of the sign of the numerator, zero over zero is NaN. -/
def div : F64 → F64 → F64
  | fin a, fin b => if b = 0 then infOfSign a else fin (a / b)
  | fin _, posInf => fin 0
  | fin _, negInf => fin 0
  | posInf, fin b => if 0 ≤ b then posInf else negInf
  | negInf, fin b => if 0 ≤ b then negInf else posInf
  | _, _ => nan

/-- The function `math.Ceil`. -/
def ceil : F64 → F64
  | fin q => fin (⌈q⌉ : Int)
  | x => x

/-- The comparison `x < 0`. -/
def ltZero : F64 → Bool
  | fin q => decide (q < 0)
  | negInf => true
  | _ => false

/-- Truncation toward zero of a rational. -/
def trunc (q : ℚ) : Int := if 0 ≤ q then ⌊q⌋ else ⌈q⌉

/-- The conversion `int(x)`: the truncation when it is a value of `int`,
otherwise what the platform `impl` gives, as a value of `int`. -/
def toInt (impl : F64 → Int) : F64 → Int
  | fin q => if inInt64 (trunc q) then trunc q else wrap64 (impl (fin q))
  | x => wrap64 (impl x)

end F64

/-! ## Data model -/

/-- The type `url.Values`: keys with their value lists. -/
abbrev Values := List (String × List String)

/-- The value `RequestStat`, one captured request. -/
structure RequestStat where
  RequestedAt : Nat
  RequestUrl : String
  HttpMethod : String
  HttpStatus : Int
  ContentType : String
  GetParams : Values
  PostParams : Values
  Json : Option Values
  PostMultipart : Option Values
  ClientIP : String
  Cookies : List (String × String)
  Headers : Values
deriving DecidableEq

/-- The value `Pagination`. -/
structure Pagination where
  Total : Int
  TotalPage : Int
  CurrentPage : Int
  PerPage : Int
  HasNext : Bool
  HasPrev : Bool
  NextPageUrl : String
  PrevPageUrl : String
  Data : List RequestStat
deriving DecidableEq

/-- The initial `var pagination = Pagination{}`. -/
def Pagination.zero : Pagination :=
  { Total := 0, TotalPage := 0, CurrentPage := 0, PerPage := 0,
    HasNext := false, HasPrev := false, NextPageUrl := "", PrevPageUrl := "",
    Data := [] }

/-- How a handler call ends: normally, or in a panic; either way with the
package-level value it leaves behind. -/
inductive Outcome (α : Type) where
  | done (a : α)
  | fault (a : α)
deriving DecidableEq

/-- The value left behind by a call. -/
def Outcome.state {α : Type} : Outcome α → α
  | .done a => a
  | .fault a => a

/-- Whether a call completed without a panic. -/
def Outcome.completed {α : Type} : Outcome α → Bool
  | .done _ => true
  | .fault _ => false

/-! ## Pagination -/

/-- The slice expression `s[lo:hi]`, which panics unless
`0 <= lo <= hi <= len(s)`. -/
def slice (s : List RequestStat) (lo hi : Int) : Option (List RequestStat) :=
  if 0 ≤ lo ∧ lo ≤ hi ∧ hi ≤ s.length then
    some ((s.drop lo.toNat).take (hi - lo).toNat)
  else none

/-- The slice expression `s[lo:]`, which panics unless `0 <= lo <= len(s)`. -/
def sliceFrom (s : List RequestStat) (lo : Int) : Option (List RequestStat) :=
  if 0 ≤ lo ∧ lo ≤ s.length then some (s.drop lo.toNat) else none

/-- The function `paginate`. -/
def paginate (s : List RequestStat) (offset length : Int) :
    Option (List RequestStat) :=
  let e := wrap64 (offset + length)
  if e < s.length then slice s offset e else sliceFrom s offset

/-- A query parameter as `strconv.ParseFloat(c.DefaultQuery(key, dflt), 64)`
sees it: the key is absent, or its text parses to a float64 (`±Inf` when the
text is a number out of range), or its text is not a number. -/
inductive QueryValue where
  | absent
  | numeric (v : F64)
  | malformed
deriving DecidableEq

/-- The value of `x, _ := strconv.ParseFloat(c.DefaultQuery(key, dflt), 64)`:
the default when the key is absent, and 0, which `ParseFloat` returns
together with the discarded syntax error, when the text is not a number. -/
def queryFloat (dflt : F64) : QueryValue → F64
  | .absent => dflt
  | .numeric v => v
  | .malformed => .fin 0

/-- The function `strconv.Itoa`. -/
def itoa (n : Int) : String := toString n

/-- The page link `urlPath + "?page=" + Itoa(p) + "&per_page=" + Itoa(pp)`. -/
def pageUrl (urlPath : String) (p pp : Int) : String :=
  urlPath ++ "?page=" ++ itoa p ++ "&per_page=" ++ itoa pp

/-- The inspection endpoint path. -/
def inspectorPath : String := "/_inspector"

/-- The offset `(page - 1) * perPage`, floored at 0. The product is exact
here and rounded in float64; the two agree on integers while the product is
at most `2^53` in magnitude. -/
def offsetOf (page perPage : F64) : F64 :=
  let offset := F64.mul (F64.sub page (.fin 1)) perPage
  if offset.ltZero then .fin 0 else offset

/-- The assignments of the `/_inspector` branch up to the call of
`paginate`. The quotient `total / perPage` is exact here and rounded in
float64; its ceiling is the same for a store of at most `2^53` snapshots and
an integer `perPage`. -/
def inspectHead (impl : F64 → Int) (store : List RequestStat)
    (pg : Pagination) (page perPage : F64) : Pagination :=
  let total := F64.ofNat store.length
  let totalPage := F64.ceil (F64.div total perPage)
  { pg with
    HasPrev := false
    HasNext := false
    CurrentPage := F64.toInt impl page
    PerPage := F64.toInt impl perPage
    TotalPage := F64.toInt impl totalPage
    Total := F64.toInt impl total }

/-- The two `if` statements that set the navigation flags and links. -/
def inspectLinks (pg : Pagination) : Pagination :=
  let pg1 :=
    if pg.CurrentPage > 1 then
      { pg with
        HasPrev := true
        PrevPageUrl := pageUrl inspectorPath (wrap64 (pg.CurrentPage - 1)) pg.PerPage }
    else pg
  if pg1.CurrentPage < pg1.TotalPage then
    { pg1 with
      HasNext := true
      NextPageUrl := pageUrl inspectorPath (wrap64 (pg1.CurrentPage + 1)) pg1.PerPage }
  else pg1

/-- The `/_inspector` branch of `InspectorStats`: one inspection request
with query parameters `page` and `per_page`, acting on the package-level
`pagination` value `pg` and reading the store. -/
def inspect (impl : F64 → Int) (store : List RequestStat) (pg : Pagination)
    (pageQ perPageQ : QueryValue) : Outcome Pagination :=
  let page := queryFloat (.fin 1) pageQ
  let perPage := queryFloat (.fin 20) perPageQ
  let pg1 := inspectHead impl store pg page perPage
  match paginate store (F64.toInt impl (offsetOf page perPage))
      (F64.toInt impl perPage) with
  | none => .fault pg1
  | some d => .done (inspectLinks { pg1 with Data := d })

/-- A run of inspection requests against a fixed store, each acting on the
value the previous one left behind. -/
def inspectAll (impl : F64 → Int) (store : List RequestStat) :
    Pagination → List (QueryValue × QueryValue) → Pagination
  | pg, [] => pg
  | pg, (p, pp) :: rest =>
    inspectAll impl store (inspect impl store pg p pp).state rest

/-- An integer query parameter. -/
def QueryValue.int (n : Int) : QueryValue := .numeric (.fin n)

/-- A snapshot that records only the request path. -/
def RequestStat.ofPath (path : String) : RequestStat :=
  { RequestedAt := 0, RequestUrl := path, HttpMethod := "GET", HttpStatus := 200,
    ContentType := "", GetParams := [], PostParams := [], Json := none,
    PostMultipart := none, ClientIP := "", Cookies := [], Headers := [] }

/-! ## JSON flattening -/

/-- A value decoded by `encoding/json` into `interface{}`: `nil`, `bool`,
`float64`, `string`, `[]interface{}` or `map[string]interface{}`. The field
list of an object is in the order in which `range` visits the map. -/
inductive JSON where
  | null
  | bool (b : Bool)
  | num (q : ℚ)
  | str (s : String)
  | arr (items : List JSON)
  | obj (fields : List (String × JSON))

/-- The assignment `values[k] = v` on a map. -/
def Values.set : Values → String → List String → Values
  | [], k, v => [(k, v)]
  | (k1, v1) :: rest, k, v =>
    if k1 = k then (k, v) :: rest else (k1, v1) :: Values.set rest k v

/-- The loop `for subK, subV := range sub { values[subK] = subV }`. -/
def Values.merge (values sub : Values) : Values :=
  sub.foldl (fun acc kv => Values.set acc kv.1 kv.2) values

/-- The keys of a map. -/
def Values.keys (values : Values) : List String := values.map Prod.fst

/-- The value of `fmt.Sprint` on a float64: integers of fewer than seven
digits print in plain decimal; every other value is left to the formatter
`fmtG` of the `fmt` package. A number is held as a rational, so the negative
zero, which prints as `-0`, is not told apart from `0`. -/
def sprintNum (fmtG : ℚ → String) (q : ℚ) : String :=
  if q.den = 1 ∧ q.num.natAbs < 1000000 then toString q.num else fmtG q

/-- Insertion of a printed field into a list sorted by key. -/
def insertByKey (kv : String × String) : List (String × String) → List (String × String)
  | [] => [kv]
  | x :: xs => if kv.1 < x.1 then kv :: x :: xs else x :: insertByKey kv xs

mutual
/-- The value of `fmt.Sprint` on a decoded JSON value: `<nil>`, `true` or
`false`, the number, the string itself, `[e1 e2 ...]` for an array, and
`map[k1:v1 k2:v2 ...]` with the keys sorted for an object. -/
def sprint (fmtG : ℚ → String) : JSON → String
  | .null => "<nil>"
  | .bool b => if b then "true" else "false"
  | .num q => sprintNum fmtG q
  | .str s => s
  | .arr items => "[" ++ " ".intercalate (sprintItems fmtG items) ++ "]"
  | .obj fields =>
    "map[" ++ " ".intercalate
      (((sprintFields fmtG fields).foldr insertByKey []).map
        (fun kv => kv.1 ++ ":" ++ kv.2)) ++ "]"
/-- The printed elements of an array. -/
def sprintItems (fmtG : ℚ → String) : List JSON → List String
  | [] => []
  | x :: xs => sprint fmtG x :: sprintItems fmtG xs
/-- The printed fields of an object. -/
def sprintFields (fmtG : ℚ → String) : List (String × JSON) → List (String × String)
  | [] => []
  | (k, v) :: rest => (k, sprint fmtG v) :: sprintFields fmtG rest
end

/-- The key `fmt.Sprintf("%s[%d]", key, i)`. -/
def arrayKey (key : String) (i : Nat) : String := key ++ "[" ++ toString i ++ "]"

/-- The key of field `k` under prefix `pfx`. -/
def fieldKey (pfx k : String) : String := if pfx ≠ "" then pfx ++ "." ++ k else k

mutual
/-- The loop `for k, v := range data` of `flattenJSONToValues(data, pfx)`
over the fields still to visit, with `values` as built so far. -/
def flattenFields (fmtG : ℚ → String) :
    String → List (String × JSON) → Values → Values
  | _, [], values => values
  | pfx, (k, v) :: rest, values =>
    flattenFields fmtG pfx rest (flattenValue fmtG (fieldKey pfx k) v values)
/-- The type switch on a field value `v` stored under `key`. The nested call
`flattenJSONToValues(val, key)` is `flattenFields fmtG key val []`. -/
def flattenValue (fmtG : ℚ → String) : String → JSON → Values → Values
  | key, .obj val, values => Values.merge values (flattenFields fmtG key val [])
  | key, .arr val, values => flattenItems fmtG key val 0 values
  | key, .null, values => Values.set values key [sprint fmtG .null]
  | key, .bool b, values => Values.set values key [sprint fmtG (.bool b)]
  | key, .num q, values => Values.set values key [sprint fmtG (.num q)]
  | key, .str s, values => Values.set values key [sprint fmtG (.str s)]
/-- The loop `for i, item := range val` over the elements still to visit,
the next one at index `i`. -/
def flattenItems (fmtG : ℚ → String) :
    String → List JSON → Nat → Values → Values
  | _, [], _, values => values
  | key, item :: rest, i, values =>
    flattenItems fmtG key rest (i + 1) (flattenItem fmtG (arrayKey key i) item values)
/-- The body of the element loop for `item` with its key `akey`: an object
is flattened under `akey`, anything else is printed as the value of `akey`. -/
def flattenItem (fmtG : ℚ → String) : String → JSON → Values → Values
  | akey, .obj itemMap, values => Values.merge values (flattenFields fmtG akey itemMap [])
  | akey, .arr a, values => Values.set values akey [sprint fmtG (.arr a)]
  | akey, .null, values => Values.set values akey [sprint fmtG .null]
  | akey, .bool b, values => Values.set values akey [sprint fmtG (.bool b)]
  | akey, .num q, values => Values.set values akey [sprint fmtG (.num q)]
  | akey, .str s, values => Values.set values akey [sprint fmtG (.str s)]
end

/-- The function `flattenJSONToValues`. -/
def flattenJSONToValues (fmtG : ℚ → String) (data : List (String × JSON))
    (pfx : String) : Values :=
  flattenFields fmtG pfx data []

mutual
/-- The number of leaves below the fields of an object: the scalars that
are a field value or an array element, at any depth. -/
def leavesFields : List (String × JSON) → Nat
  | [] => 0
  | (_, v) :: rest => leavesValue v + leavesFields rest
/-- The number of leaves of a value: 1 for a scalar. -/
def leavesValue : JSON → Nat
  | .obj val => leavesFields val
  | .arr val => leavesItems val
  | _ => 1
/-- The number of leaves below the elements of an array. -/
def leavesItems : List JSON → Nat
  | [] => 0
  | item :: rest => leavesValue item + leavesItems rest
end

mutual
/-- The keys under which the fields of an object are stored, in visiting
order, one for each assignment to the map. -/
def leafKeysFields : String → List (String × JSON) → List String
  | _, [] => []
  | pfx, (k, v) :: rest => leafKeysValue (fieldKey pfx k) v ++ leafKeysFields pfx rest
/-- The keys stored for a field value under `key`. -/
def leafKeysValue : String → JSON → List String
  | key, .obj val => leafKeysFields key val
  | key, .arr val => leafKeysItems key val 0
  | key, _ => [key]
/-- The keys stored for the elements of an array, the next at index `i`. -/
def leafKeysItems : String → List JSON → Nat → List String
  | _, [], _ => []
  | key, item :: rest, i =>
    leafKeysItem (arrayKey key i) item ++ leafKeysItems key rest (i + 1)
/-- The keys stored for an array element with key `akey`. -/
def leafKeysItem : String → JSON → List String
  | akey, .obj val => leafKeysFields akey val
  | akey, _ => [akey]
end

/-- Whether a value is an array. -/
def JSON.isArr : JSON → Bool
  | .arr _ => true
  | _ => false

mutual
/-- Whether no array below the fields of an object has an array as an
element. -/
def flatArraysFields : List (String × JSON) → Bool
  | [] => true
  | (_, v) :: rest => flatArraysValue v && flatArraysFields rest
/-- Whether no array in a value has an array as an element. -/
def flatArraysValue : JSON → Bool
  | .obj val => flatArraysFields val
  | .arr val => flatArraysItems val
  | _ => true
/-- Whether no element of an array is an array or has such an array below
it. -/
def flatArraysItems : List JSON → Bool
  | [] => true
  | item :: rest => !item.isArr && flatArraysValue item && flatArraysItems rest
end

/-- The object `{"a": {"b": 1}, "c": [1, {"d": 2}]}`, field `a` first. -/
def sampleAC : List (String × JSON) :=
  [("a", .obj [("b", .num 1)]), ("c", .arr [.num 1, .obj [("d", .num 2)]])]

/-- The same object, field `c` first. -/
def sampleCA : List (String × JSON) :=
  [("c", .arr [.num 1, .obj [("d", .num 2)]]), ("a", .obj [("b", .num 1)])]

/-- The object `{"a": {"b": 1}, "a.b": 2}`, field `a` first: two leaves with
the same flattened key. -/
def sampleCollide : List (String × JSON) :=
  [("a", .obj [("b", .num 1)]), ("a.b", .num 2)]

/-- The object `{"c": [[1, 2]]}`: an array inside an array. -/
def sampleNested : List (String × JSON) :=
  [("c", .arr [.arr [.num 1, .num 2]])]

/-! ## Capture of a request -/

/-- The media type of the `Content-Type` header, as `net/http` classifies it
when it parses a form. -/
inductive MediaType where
  | formUrlencoded
  | multipartForm
  | other
deriving DecidableEq

/-- What the handler reads of `c.Request` and `c`. `Body` is the part of the
request body not yet read (`none` for a nil body); `Status` is
`c.Writer.Status()`, `Now` is `time.Now()`. -/
structure Request where
  Path : String
  Method : String
  Media : MediaType
  ContentType : String
  Header : Values
  Cookies : List (String × String)
  Query : Values
  PostForm : Values
  MultipartForm : Option Values
  Body : Option (List UInt8)
  Status : Int
  ClientIP : String
  Now : Nat
deriving DecidableEq

/-- The library calls of the handler: `strconv.ParseFloat` (`none` is a syntax
error), `Request.ParseForm`, `Request.ParseMultipartForm`, and
`json.Unmarshal` into a `map[string]interface{}` (`none` is an error; the
fields come in the order in which `range` will visit them). -/
structure Lib where
  parseFloat : String → Option F64
  parseForm : Request → Request
  parseMultipartForm : Int → Request → Request
  unmarshal : List UInt8 → Option (List (String × JSON))

/-- The call `c.DefaultQuery(key, dflt)` followed by `strconv.ParseFloat`,
on the query of the request. -/
def queryValue (lib : Lib) (q : Values) (key : String) : QueryValue :=
  match q.lookup key with
  | some (text :: _) =>
    (match lib.parseFloat text with
    | some v => .numeric v
    | none => .malformed)
  | _ => .absent

/-- The request after `ParseForm`, `ParseMultipartForm(10000)`,
`io.ReadAll(c.Request.Body)` and the assignment of a fresh reader over the
bytes read: the body left to read is what the two parse calls left. -/
def afterCapture (lib : Lib) (req : Request) : Request :=
  lib.parseMultipartForm 10000 (lib.parseForm req)

/-- The bytes `bodyBytes` that the capture reads. -/
def bodyBytes (lib : Lib) (req : Request) : List UInt8 :=
  match (afterCapture lib req).Body with
  | some b => b
  | none => []

/-- The value `jsonParams`: the flattened body when it is not empty and
decodes as a JSON object, otherwise the nil map. -/
def jsonParams (fmtG : ℚ → String) (lib : Lib) (req : Request) : Option Values :=
  if (bodyBytes lib req).length > 0 then
    match lib.unmarshal (bodyBytes lib req) with
    | some jsonMap => some (flattenJSONToValues fmtG jsonMap "")
    | none => none
  else none

/-- The snapshot `request` built by the capture branch. -/
def snapshotOf (fmtG : ℚ → String) (lib : Lib) (req : Request) : RequestStat :=
  { RequestedAt := req.Now
    RequestUrl := req.Path
    HttpMethod := (afterCapture lib req).Method
    HttpStatus := (afterCapture lib req).Status
    ContentType := (afterCapture lib req).ContentType
    Headers := (afterCapture lib req).Header
    Cookies := (afterCapture lib req).Cookies
    GetParams := (afterCapture lib req).Query
    PostParams := (afterCapture lib req).PostForm
    Json := jsonParams fmtG lib req
    PostMultipart := (afterCapture lib req).MultipartForm
    ClientIP := (afterCapture lib req).ClientIP }

/-- The package-level variables `allRequests` and `pagination`. -/
structure State where
  allRequests : List RequestStat
  pagination : Pagination
deriving DecidableEq

/-- The initial values `AllRequests{}` and `Pagination{}`. -/
def State.init : State := { allRequests := [], pagination := Pagination.zero }

/-- The handler returned by `InspectorStats`, up to `c.Next()`: the state it
leaves behind and the request it passes on. -/
def InspectorStats (impl : F64 → Int) (fmtG : ℚ → String) (lib : Lib) (st : State)
    (req : Request) : Outcome (State × Request) :=
  if req.Path = inspectorPath then
    match inspect impl st.allRequests st.pagination (queryValue lib req.Query "page")
        (queryValue lib req.Query "per_page") with
    | .done pg => .done ({ st with pagination := pg }, req)
    | .fault pg => .fault ({ st with pagination := pg }, req)
  else
    .done ({ st with allRequests := snapshotOf fmtG lib req :: st.allRequests },
      afterCapture lib req)

/-- A run of handled requests, each on the state the previous one left. -/
def handleAll (impl : F64 → Int) (fmtG : ℚ → String) (lib : Lib) :
    State → List Request → State
  | st, [] => st
  | st, req :: rest =>
    handleAll impl fmtG lib (InspectorStats impl fmtG lib st req).state.1 rest

/-- The limit `10 << 20` of `net/http` on a form body. -/
def maxFormSize : Nat := 10485760

/-- The method `ParseForm` of `net/http` on a request whose form is not yet
parsed: for a POST, PUT or PATCH request with a body of type
`application/x-www-form-urlencoded` it reads up to `maxFormSize + 1` bytes of
the body and parses them with `parseQuery` (`url.ParseQuery`) when they are
within the limit; otherwise it leaves the body alone and the post form
empty. -/
def netParseForm (parseQuery : List UInt8 → Values) (r : Request) : Request :=
  if r.Method = "POST" ∨ r.Method = "PUT" ∨ r.Method = "PATCH" then
    match r.Body, r.Media with
    | some b, .formUrlencoded =>
      { r with
        PostForm := if (b.take (maxFormSize + 1)).length > maxFormSize then []
          else parseQuery (b.take (maxFormSize + 1))
        Body := some (b.drop (maxFormSize + 1)) }
    | _, _ => { r with PostForm := [] }
  else { r with PostForm := [] }

/-- The loop `for k, v := range f.Value { r.PostForm[k] = append(r.PostForm[k], v...) }`
of `ParseMultipartForm`. -/
def Values.appendAll (m f : Values) : Values :=
  f.foldl (fun acc kv => Values.set acc kv.1 ((acc.lookup kv.1).getD [] ++ kv.2)) m

/-- The method `ParseMultipartForm` of `net/http` after `ParseForm`: for a
body of type `multipart/form-data` it reads the parts with `readForm`
(`multipart.Reader.ReadForm`), which gives the form values, if the body is
well formed, and the number of bytes it read; the values of a form that was
read are appended to the post form. Otherwise it leaves the request alone. -/
def netParseMultipartForm (readForm : Int → List UInt8 → Option Values × Nat)
    (maxMemory : Int) (r : Request) : Request :=
  match r.MultipartForm with
  | some _ => r
  | none =>
    match r.Body, r.Media with
    | some b, .multipartForm =>
      { r with
        MultipartForm := (readForm maxMemory b).1
        PostForm :=
          (match (readForm maxMemory b).1 with
          | some f => Values.appendAll r.PostForm f
          | none => r.PostForm)
        Body := some (b.drop (readForm maxMemory b).2) }
    | _, _ => r

/-- The library with the form parsing of `net/http`. -/
def netLib (parseFloat : String → Option F64) (parseQuery : List UInt8 → Values)
    (readForm : Int → List UInt8 → Option Values × Nat)
    (unmarshal : List UInt8 → Option (List (String × JSON))) : Lib :=
  { parseFloat := parseFloat
    parseForm := netParseForm parseQuery
    parseMultipartForm := netParseMultipartForm readForm
    unmarshal := unmarshal }

/-- A request with the given path, method, media type and body, and nothing
else. -/
def Request.simple (path method : String) (media : MediaType) (body : List UInt8) : Request :=
  { Path := path, Method := method, Media := media, ContentType := "", Header := [],
    Cookies := [], Query := [], PostForm := [], MultipartForm := none, Body := some body,
    Status := 200, ClientIP := "", Now := 0 }

/-- A library that parses the texts `1` and `5` as numbers and does nothing
else. -/
def tinyLib : Lib :=
  { parseFloat := fun s =>
      if s = "1" then some (.fin 1) else if s = "5" then some (.fin 5) else none
    parseForm := fun r => r
    parseMultipartForm := fun _ r => r
    unmarshal := fun _ => none }

/-- An inspection request with the given `page` and `per_page` texts. -/
def Request.inspection (page perPage : String) : Request :=
  { Request.simple inspectorPath "GET" .other [] with
    Query := [("page", [page]), ("per_page", [perPage])] }

/-- The conversion `int(x)` of amd64 for a float64 that `int` cannot
represent: the instruction gives the value `0x8000000000000000`, which is
`-2^63`. -/
def amd64Conv : F64 → Int := fun _ => -(2 ^ 63)

/-- A library that parses the texts `1` and `9223372036854775808`, which is
`2^63`, as numbers and does nothing else. -/
def hugeLib : Lib :=
  { parseFloat := fun s =>
      if s = "1" then some (.fin 1)
      else if s = "9223372036854775808" then some (.fin (2 ^ 63)) else none
    parseForm := fun r => r
    parseMultipartForm := fun _ r => r
    unmarshal := fun _ => none }

/-- The object `{"a": {"b": 1}, "a.b": 2}`, field `a.b` first. -/
def sampleCollideRev : List (String × JSON) :=
  [("a.b", .num 2), ("a", .obj [("b", .num 1)])]

/-- A map with every key `k` replaced by `p + "." + k`, the values
unchanged. -/
def withPrefix (p : String) (m : Values) : Values :=
  m.map (fun kv => (p ++ "." ++ kv.1, kv.2))

/-- Whether a value is an object. -/
def JSON.isObj : JSON → Bool
  | .obj _ => true
  | _ => false

/-- Whether no field with the empty name has an object as its value. -/
def noEmptyObjField (fs : List (String × JSON)) : Bool :=
  fs.all (fun kv => !(decide (kv.1 = "") && kv.2.isObj))

/-- The object `{"": {"b": 1}}`: an object under the empty field name. -/
def sampleEmptyName : List (String × JSON) :=
  [("", .obj [("b", .num 1)])]

mutual
/-- The assignments `values[key] = value` that flattening the fields of an
object under `pfx` makes, in visiting order. -/
def entriesFields (fmtG : ℚ → String) : String → List (String × JSON) → Values
  | _, [] => []
  | pfx, (k, v) :: rest =>
    entriesValue fmtG (fieldKey pfx k) v ++ entriesFields fmtG pfx rest
/-- The assignments made for a field value under `key`. -/
def entriesValue (fmtG : ℚ → String) : String → JSON → Values
  | key, .obj val => entriesFields fmtG key val
  | key, .arr val => entriesItems fmtG key val 0
  | key, .null => [(key, [sprint fmtG .null])]
  | key, .bool b => [(key, [sprint fmtG (.bool b)])]
  | key, .num q => [(key, [sprint fmtG (.num q)])]
  | key, .str s => [(key, [sprint fmtG (.str s)])]
/-- The assignments made for the elements of an array, the next at index
`i`. -/
def entriesItems (fmtG : ℚ → String) : String → List JSON → Nat → Values
  | _, [], _ => []
  | key, item :: rest, i =>
    entriesItem fmtG (arrayKey key i) item ++ entriesItems fmtG key rest (i + 1)
/-- The assignments made for an array element with key `akey`. -/
def entriesItem (fmtG : ℚ → String) : String → JSON → Values
  | akey, .obj val => entriesFields fmtG akey val
  | akey, .arr a => [(akey, [sprint fmtG (.arr a)])]
  | akey, .null => [(akey, [sprint fmtG .null])]
  | akey, .bool b => [(akey, [sprint fmtG (.bool b)])]
  | akey, .num q => [(akey, [sprint fmtG (.num q)])]
  | akey, .str s => [(akey, [sprint fmtG (.str s)])]
end

mutual
/-- The field list `m` has the fields of `fs`, name by name in the same
order, each value with the fields of its objects visited in another order. -/
def fieldsPointwise : List (String × JSON) → List (String × JSON) → Prop
  | [], m => m = []
  | (k, v) :: fs, m =>
    ∃ w m1, m = (k, w) :: m1 ∧ valueReordered v w ∧ fieldsPointwise fs m1
/-- The value `w` is the field value `v` with the fields of its objects
visited in another order: the fields of an object permuted, the elements of
an array kept in place, a scalar unchanged. -/
def valueReordered : JSON → JSON → Prop
  | .obj fs, w => ∃ mid fs1, w = .obj fs1 ∧ fieldsPointwise fs mid ∧ List.Perm mid fs1
  | .arr xs, w => ∃ ys, w = .arr ys ∧ itemsReordered xs ys
  | .null, w => w = .null
  | .bool b, w => w = .bool b
  | .num q, w => w = .num q
  | .str s, w => w = .str s
/-- The array elements `m` are those of the first list, in place, each with
the fields of its objects visited in another order. -/
def itemsReordered : List JSON → List JSON → Prop
  | [], m => m = []
  | x :: xs, m => ∃ y ys, m = y :: ys ∧ itemReordered x y ∧ itemsReordered xs ys
/-- The array element `w` is the element `v` with the fields of its objects
visited in another order. An element that is an array is printed by
`fmt.Sprint`, which visits nothing in map order, and stays as it is. -/
def itemReordered : JSON → JSON → Prop
  | .obj fs, w => ∃ mid fs1, w = .obj fs1 ∧ fieldsPointwise fs mid ∧ List.Perm mid fs1
  | .arr a, w => w = .arr a
  | .null, w => w = .null
  | .bool b, w => w = .bool b
  | .num q, w => w = .num q
  | .str s, w => w = .str s
end

/-- The object tree `d1` is the tree `d` with the fields of every object,
the top one included, visited in another order. -/
def reordered (d d1 : List (String × JSON)) : Prop :=
  ∃ mid, fieldsPointwise d mid ∧ List.Perm mid d1

/-! ## Machine integers and float64: lemmas -/

theorem wrap64_of_inInt64 {x : Int} (h : inInt64 x) : wrap64 x = x := by
  unfold inInt64 at h
  unfold wrap64
  omega

theorem inInt64_wrap64 (x : Int) : inInt64 (wrap64 x) := by
  unfold inInt64 wrap64
  omega

theorem trunc_intCast (n : Int) : F64.trunc (n : ℚ) = n := by
  unfold F64.trunc
  split <;> simp

theorem toInt_intCast (impl : F64 → Int) {n : Int} (h : inInt64 n) :
    F64.toInt impl (.fin (n : ℚ)) = n := by
  simp [F64.toInt, trunc_intCast, h]

theorem inInt64_toInt (impl : F64 → Int) (x : F64) : inInt64 (F64.toInt impl x) := by
  cases x with
  | fin q =>
    simp only [F64.toInt]
    split
    · assumption
    · exact inInt64_wrap64 _
  | _ => exact inInt64_wrap64 _

theorem ceil_div_int (t p : Int) (hp : 0 < p) :
    (⌈(t : ℚ) / (p : ℚ)⌉ : Int) = (t + p - 1) / p := by
  rw [Int.ceil_eq_iff]
  have hp' : (0 : ℚ) < (p : ℚ) := by exact_mod_cast hp
  have hr := Int.emod_lt_of_pos (t + p - 1) hp
  have hr0 := Int.emod_nonneg (t + p - 1) (ne_of_gt hp)
  have hd := Int.ediv_add_emod (t + p - 1) p
  constructor
  · rw [lt_div_iff₀ hp']
    have h1 : (t + p - 1) / p * p ≤ t + p - 1 := by nlinarith
    have h2 : (((t + p - 1) / p * p : Int) : ℚ) ≤ ((t + p - 1 : Int) : ℚ) := by
      exact_mod_cast h1
    push_cast at h2 ⊢
    linarith
  · rw [div_le_iff₀ hp']
    have h1 : t ≤ (t + p - 1) / p * p := by nlinarith
    have h2 : ((t : Int) : ℚ) ≤ (((t + p - 1) / p * p : Int) : ℚ) := by
      exact_mod_cast h1
    push_cast at h2 ⊢
    linarith

/-! ## Flattening: keys of the result -/

theorem set_keys_mem (m : Values) (k : String) (v : List String) (x : String) :
    x ∈ (Values.set m k v).keys ↔ x ∈ m.keys ∨ x = k := by
  induction m with
  | nil => simp [Values.set, Values.keys]
  | cons hd tl ih =>
    obtain ⟨k1, v1⟩ := hd
    simp only [Values.keys] at ih
    by_cases h : k1 = k
    · subst h
      simp only [Values.set, if_true, Values.keys, List.map_cons, List.mem_cons]
      tauto
    · simp only [Values.set, if_neg h, Values.keys, List.map_cons, List.mem_cons, ih]
      tauto

theorem set_keys_nodup (m : Values) (k : String) (v : List String) (h : m.keys.Nodup) :
    (Values.set m k v).keys.Nodup := by
  induction m with
  | nil => simp [Values.set, Values.keys]
  | cons hd tl ih =>
    obtain ⟨k1, v1⟩ := hd
    simp only [Values.keys, List.map_cons, List.nodup_cons] at h
    by_cases hk : k1 = k
    · subst hk
      simp only [Values.set, if_true, Values.keys, List.map_cons, List.nodup_cons]
      exact h
    · simp only [Values.set, if_neg hk, Values.keys, List.map_cons, List.nodup_cons]
      refine ⟨?_, ih h.2⟩
      intro hin
      have := (set_keys_mem tl k v k1).mp hin
      rcases this with h1 | h1
      · exact h.1 h1
      · exact hk h1

theorem merge_keys (sub m : Values) :
    (m.keys.Nodup → (Values.merge m sub).keys.Nodup) ∧
    ∀ x, x ∈ (Values.merge m sub).keys ↔ x ∈ m.keys ∨ x ∈ sub.keys := by
  induction sub generalizing m with
  | nil => simp [Values.merge, Values.keys]
  | cons hd tl ih =>
    have h := ih (Values.set m hd.1 hd.2)
    have he : Values.merge m (hd :: tl) = Values.merge (Values.set m hd.1 hd.2) tl := rfl
    rw [he]
    refine ⟨fun hn => h.1 (set_keys_nodup m _ _ hn), fun x => ?_⟩
    rw [h.2 x, set_keys_mem]
    simp only [Values.keys, List.map_cons, List.mem_cons]
    tauto

mutual
theorem flattenFields_keys (fmtG : ℚ → String) :
    ∀ (pfx : String) (fs : List (String × JSON)) (values : Values),
      (values.keys.Nodup → (flattenFields fmtG pfx fs values).keys.Nodup) ∧
      ∀ x, x ∈ (flattenFields fmtG pfx fs values).keys ↔
        x ∈ values.keys ∨ x ∈ leafKeysFields pfx fs
  | _, [], values => by simp [flattenFields, leafKeysFields]
  | pfx, (k, v) :: rest, values => by
    have h1 := flattenValue_keys fmtG (fieldKey pfx k) v values
    have h2 := flattenFields_keys fmtG pfx rest (flattenValue fmtG (fieldKey pfx k) v values)
    simp only [flattenFields, leafKeysFields, List.mem_append]
    refine ⟨fun hn => h2.1 (h1.1 hn), fun x => ?_⟩
    rw [h2.2 x, h1.2 x]
    tauto
theorem flattenValue_keys (fmtG : ℚ → String) :
    ∀ (key : String) (v : JSON) (values : Values),
      (values.keys.Nodup → (flattenValue fmtG key v values).keys.Nodup) ∧
      ∀ x, x ∈ (flattenValue fmtG key v values).keys ↔
        x ∈ values.keys ∨ x ∈ leafKeysValue key v
  | key, .obj val, values => by
    have h1 := flattenFields_keys fmtG key val []
    have h2 := merge_keys (flattenFields fmtG key val []) values
    simp only [flattenValue, leafKeysValue]
    refine ⟨h2.1, fun x => ?_⟩
    rw [h2.2 x, h1.2 x]
    simp [Values.keys]
  | key, .arr val, values => by
    have h1 := flattenItems_keys fmtG key val 0 values
    simp only [flattenValue, leafKeysValue]
    exact h1
  | key, .null, values => by
    simp only [flattenValue, leafKeysValue, List.mem_singleton]
    exact ⟨set_keys_nodup _ _ _, set_keys_mem _ _ _⟩
  | key, .bool b, values => by
    simp only [flattenValue, leafKeysValue, List.mem_singleton]
    exact ⟨set_keys_nodup _ _ _, set_keys_mem _ _ _⟩
  | key, .num q, values => by
    simp only [flattenValue, leafKeysValue, List.mem_singleton]
    exact ⟨set_keys_nodup _ _ _, set_keys_mem _ _ _⟩
  | key, .str s, values => by
    simp only [flattenValue, leafKeysValue, List.mem_singleton]
    exact ⟨set_keys_nodup _ _ _, set_keys_mem _ _ _⟩
theorem flattenItems_keys (fmtG : ℚ → String) :
    ∀ (key : String) (items : List JSON) (i : Nat) (values : Values),
      (values.keys.Nodup → (flattenItems fmtG key items i values).keys.Nodup) ∧
      ∀ x, x ∈ (flattenItems fmtG key items i values).keys ↔
        x ∈ values.keys ∨ x ∈ leafKeysItems key items i
  | _, [], _, values => by simp [flattenItems, leafKeysItems]
  | key, item :: rest, i, values => by
    have h1 := flattenItem_keys fmtG (arrayKey key i) item values
    have h2 := flattenItems_keys fmtG key rest (i + 1)
      (flattenItem fmtG (arrayKey key i) item values)
    simp only [flattenItems, leafKeysItems, List.mem_append]
    refine ⟨fun hn => h2.1 (h1.1 hn), fun x => ?_⟩
    rw [h2.2 x, h1.2 x]
    tauto
theorem flattenItem_keys (fmtG : ℚ → String) :
    ∀ (akey : String) (item : JSON) (values : Values),
      (values.keys.Nodup → (flattenItem fmtG akey item values).keys.Nodup) ∧
      ∀ x, x ∈ (flattenItem fmtG akey item values).keys ↔
        x ∈ values.keys ∨ x ∈ leafKeysItem akey item
  | akey, .obj val, values => by
    have h1 := flattenFields_keys fmtG akey val []
    have h2 := merge_keys (flattenFields fmtG akey val []) values
    simp only [flattenItem, leafKeysItem]
    refine ⟨h2.1, fun x => ?_⟩
    rw [h2.2 x, h1.2 x]
    simp [Values.keys]
  | akey, .arr a, values => by
    simp only [flattenItem, leafKeysItem, List.mem_singleton]
    exact ⟨set_keys_nodup _ _ _, set_keys_mem _ _ _⟩
  | akey, .null, values => by
    simp only [flattenItem, leafKeysItem, List.mem_singleton]
    exact ⟨set_keys_nodup _ _ _, set_keys_mem _ _ _⟩
  | akey, .bool b, values => by
    simp only [flattenItem, leafKeysItem, List.mem_singleton]
    exact ⟨set_keys_nodup _ _ _, set_keys_mem _ _ _⟩
  | akey, .num q, values => by
    simp only [flattenItem, leafKeysItem, List.mem_singleton]
    exact ⟨set_keys_nodup _ _ _, set_keys_mem _ _ _⟩
  | akey, .str s, values => by
    simp only [flattenItem, leafKeysItem, List.mem_singleton]
    exact ⟨set_keys_nodup _ _ _, set_keys_mem _ _ _⟩
end

mutual
theorem leafKeysFields_length :
    ∀ (pfx : String) (fs : List (String × JSON)), flatArraysFields fs = true →
      (leafKeysFields pfx fs).length = leavesFields fs
  | _, [], _ => by simp [leafKeysFields, leavesFields]
  | pfx, (k, v) :: rest, h => by
    simp only [flatArraysFields, Bool.and_eq_true] at h
    simp only [leafKeysFields, leavesFields, List.length_append,
      leafKeysValue_length (fieldKey pfx k) v h.1, leafKeysFields_length pfx rest h.2]
theorem leafKeysValue_length :
    ∀ (key : String) (v : JSON), flatArraysValue v = true →
      (leafKeysValue key v).length = leavesValue v
  | key, .obj val, h => by
    simp only [flatArraysValue] at h
    simp only [leafKeysValue, leavesValue, leafKeysFields_length key val h]
  | key, .arr val, h => by
    simp only [flatArraysValue] at h
    simp only [leafKeysValue, leavesValue, leafKeysItems_length key val 0 h]
  | _, .null, _ => by simp [leafKeysValue, leavesValue]
  | _, .bool _, _ => by simp [leafKeysValue, leavesValue]
  | _, .num _, _ => by simp [leafKeysValue, leavesValue]
  | _, .str _, _ => by simp [leafKeysValue, leavesValue]
theorem leafKeysItems_length :
    ∀ (key : String) (items : List JSON) (i : Nat), flatArraysItems items = true →
      (leafKeysItems key items i).length = leavesItems items
  | _, [], _, _ => by simp [leafKeysItems, leavesItems]
  | key, item :: rest, i, h => by
    simp only [flatArraysItems, Bool.and_eq_true, Bool.not_eq_true'] at h
    simp only [leafKeysItems, leavesItems, List.length_append,
      leafKeysItem_length (arrayKey key i) item h.1.1 h.1.2,
      leafKeysItems_length key rest (i + 1) h.2]
theorem leafKeysItem_length :
    ∀ (akey : String) (item : JSON), item.isArr = false → flatArraysValue item = true →
      (leafKeysItem akey item).length = leavesValue item
  | akey, .obj val, _, h => by
    simp only [flatArraysValue] at h
    simp only [leafKeysItem, leavesValue, leafKeysFields_length akey val h]
  | _, .arr _, ha, _ => by simp [JSON.isArr] at ha
  | _, .null, _, _ => by simp [leafKeysItem, leavesValue]
  | _, .bool _, _, _ => by simp [leafKeysItem, leavesValue]
  | _, .num _, _, _ => by simp [leafKeysItem, leavesValue]
  | _, .str _, _, _ => by simp [leafKeysItem, leavesValue]
end

theorem flatten_keys (fmtG : ℚ → String) (data : List (String × JSON)) (pfx : String) :
    (flattenJSONToValues fmtG data pfx).keys.Nodup ∧
    ∀ x, x ∈ (flattenJSONToValues fmtG data pfx).keys ↔ x ∈ leafKeysFields pfx data := by
  have h := flattenFields_keys fmtG pfx data []
  refine ⟨h.1 (by simp [Values.keys]), fun x => ?_⟩
  unfold flattenJSONToValues
  rw [h.2 x]
  simp [Values.keys]

/-! ## Flattening: the claims -/

/-- C1. Flattening `{"a": {"b": 1}, "c": [1, {"d": 2}]}` with the empty
prefix gives exactly the three entries `a.b = 1`, `c[0] = 1`, `c[1].d = 2`,
whichever of the two fields is visited first. -/
theorem C1_flatten_example (fmtG : ℚ → String) :
    flattenJSONToValues fmtG sampleAC "" =
      [("a.b", ["1"]), ("c[0]", ["1"]), ("c[1].d", ["2"])] ∧
    flattenJSONToValues fmtG sampleCA "" =
      [("c[0]", ["1"]), ("c[1].d", ["2"]), ("a.b", ["1"])] :=
  ⟨rfl, rfl⟩

/-- C2 (counterexample). The object `{"a": {"b": 1}, "a.b": 2}` has two
leaves and flattens to one entry; the object `{"c": [[1, 2]]}` has two leaves
and flattens to the one entry `c[0] = [1 2]`. -/
theorem C2_fewer_entries_than_leaves :
    leavesFields sampleCollide = 2 ∧
    flattenJSONToValues (fun _ => "") sampleCollide "" = [("a.b", ["2"])] ∧
    leavesFields sampleNested = 2 ∧
    flattenJSONToValues (fun _ => "") sampleNested "" = [("c[0]", ["[1 2]"])] := by
  decide!

/-- C2 (amended). For an object tree in which no array has an array as an
element and in which the stored keys are pairwise distinct, the number of
entries of `flattenJSONToValues(data, "")` is the number of leaves. -/
theorem C2_entries_eq_leaves (fmtG : ℚ → String) (data : List (String × JSON))
    (hflat : flatArraysFields data = true) (hkeys : (leafKeysFields "" data).Nodup) :
    (flattenJSONToValues fmtG data "").length = leavesFields data := by
  obtain ⟨hn, hm⟩ := flatten_keys fmtG data ""
  have hperm : List.Perm (flattenJSONToValues fmtG data "").keys (leafKeysFields "" data) :=
    (List.perm_ext_iff_of_nodup hn hkeys).mpr hm
  have hl := hperm.length_eq
  rw [leafKeysFields_length "" data hflat] at hl
  rw [← hl]
  simp [Values.keys]

/-- Witness of C2 (amended) at `{"a": {"b": 1}, "c": [1, {"d": 2}]}`. -/
theorem C2_entries_eq_leaves_witness :
    (flattenJSONToValues (fun _ => "") sampleAC "").length = leavesFields sampleAC :=
  C2_entries_eq_leaves (fun _ => "") sampleAC (by decide) (by decide)

/-! ## Pagination: field lemmas -/

theorem inspectLinks_fields (pg : Pagination) :
    (inspectLinks pg).Total = pg.Total ∧ (inspectLinks pg).TotalPage = pg.TotalPage ∧
    (inspectLinks pg).CurrentPage = pg.CurrentPage ∧ (inspectLinks pg).PerPage = pg.PerPage ∧
    (inspectLinks pg).Data = pg.Data := by
  unfold inspectLinks
  by_cases h1 : pg.CurrentPage > 1 <;> by_cases h2 : pg.CurrentPage < pg.TotalPage <;>
    simp [h1, h2]

theorem inspect_cases (impl : F64 → Int) (store : List RequestStat) (pg : Pagination)
    (pageQ perPageQ : QueryValue) :
    (paginate store
        (F64.toInt impl (offsetOf (queryFloat (.fin 1) pageQ) (queryFloat (.fin 20) perPageQ)))
        (F64.toInt impl (queryFloat (.fin 20) perPageQ)) = none ∧
      inspect impl store pg pageQ perPageQ = .fault
        (inspectHead impl store pg (queryFloat (.fin 1) pageQ) (queryFloat (.fin 20) perPageQ))) ∨
    ∃ d, paginate store
        (F64.toInt impl (offsetOf (queryFloat (.fin 1) pageQ) (queryFloat (.fin 20) perPageQ)))
        (F64.toInt impl (queryFloat (.fin 20) perPageQ)) = some d ∧
      inspect impl store pg pageQ perPageQ = .done (inspectLinks
        { inspectHead impl store pg (queryFloat (.fin 1) pageQ) (queryFloat (.fin 20) perPageQ)
          with Data := d }) := by
  unfold inspect
  dsimp only
  generalize paginate store _ _ = r
  cases r <;> simp

theorem inspect_state_fields (impl : F64 → Int) (store : List RequestStat) (pg : Pagination)
    (pageQ perPageQ : QueryValue) :
    (inspect impl store pg pageQ perPageQ).state.CurrentPage =
      F64.toInt impl (queryFloat (.fin 1) pageQ) ∧
    (inspect impl store pg pageQ perPageQ).state.PerPage =
      F64.toInt impl (queryFloat (.fin 20) perPageQ) ∧
    (inspect impl store pg pageQ perPageQ).state.TotalPage = F64.toInt impl
      (F64.ceil (F64.div (F64.ofNat store.length) (queryFloat (.fin 20) perPageQ))) ∧
    (inspect impl store pg pageQ perPageQ).state.Total =
      F64.toInt impl (F64.ofNat store.length) := by
  rcases inspect_cases impl store pg pageQ perPageQ with ⟨_, h⟩ | ⟨d, _, h⟩
  · rw [h]; simp [Outcome.state, inspectHead]
  · rw [h]
    simp only [Outcome.state]
    obtain ⟨h1, h2, h3, h4, _⟩ := inspectLinks_fields
      { inspectHead impl store pg (queryFloat (.fin 1) pageQ) (queryFloat (.fin 20) perPageQ)
        with Data := d }
    rw [h1, h2, h3, h4]
    simp [inspectHead]

theorem inspect_done_data (impl : F64 → Int) (store : List RequestStat) (pg : Pagination)
    (pageQ perPageQ : QueryValue) (d : List RequestStat)
    (h : paginate store
      (F64.toInt impl (offsetOf (queryFloat (.fin 1) pageQ) (queryFloat (.fin 20) perPageQ)))
      (F64.toInt impl (queryFloat (.fin 20) perPageQ)) = some d) :
    ∃ pv, inspect impl store pg pageQ perPageQ = .done pv ∧ pv.Data = d := by
  rcases inspect_cases impl store pg pageQ perPageQ with ⟨h0, _⟩ | ⟨d1, h1, h2⟩
  · rw [h] at h0; cases h0
  · rw [h] at h1
    cases h1
    exact ⟨_, h2, (inspectLinks_fields _).2.2.2.2⟩

theorem offsetOf_int (page perPage : Int) :
    offsetOf (.fin page) (.fin perPage) =
      .fin (((if (page - 1) * perPage < 0 then 0 else (page - 1) * perPage : Int)) : ℚ) := by
  unfold offsetOf
  simp only [F64.sub, F64.mul, F64.ltZero]
  have : ((page : ℚ) - 1) * perPage = (((page - 1) * perPage : Int) : ℚ) := by push_cast; ring
  rw [this]
  by_cases h : (page - 1) * perPage < 0
  · have h' : (((page - 1) * perPage : Int) : ℚ) < 0 := by exact_mod_cast h
    rw [if_pos h, if_pos (decide_eq_true h')]
    simp only [Int.cast_zero]
  · have h' : ¬ (((page - 1) * perPage : Int) : ℚ) < 0 := by
      intro hc; exact h (by exact_mod_cast hc)
    rw [if_neg h, if_neg (by simpa using h')]

theorem paginate_in_range (s : List RequestStat) (offset length : Int)
    (ho : 0 ≤ offset) (hol : offset ≤ s.length) (hl : 0 ≤ length)
    (hsum : offset + length < 2 ^ 63) :
    paginate s offset length = some ((s.drop offset.toNat).take length.toNat) := by
  unfold paginate
  have hw : wrap64 (offset + length) = offset + length :=
    wrap64_of_inInt64 ⟨by omega, hsum⟩
  simp only [hw]
  by_cases h : offset + length < s.length
  · simp only [h, if_true, slice]
    have : 0 ≤ offset ∧ offset ≤ offset + length ∧ offset + length ≤ s.length := by omega
    simp [this]
  · simp only [h, if_false, sliceFrom]
    simp only [ho, hol, and_self, if_true]
    congr 1
    symm
    apply List.take_of_length_le
    simp only [List.length_drop]
    omega

theorem paginate_past_end (s : List RequestStat) (offset length : Int)
    (ho : (s.length : Int) < offset) (hl : 0 ≤ length) (hsum : offset + length < 2 ^ 63) :
    paginate s offset length = none := by
  unfold paginate
  have hw : wrap64 (offset + length) = offset + length :=
    wrap64_of_inInt64 ⟨by omega, hsum⟩
  simp only [hw]
  have h : ¬ offset + length < s.length := by omega
  simp only [h, if_false, sliceFrom]
  have : ¬ (0 ≤ offset ∧ offset ≤ s.length) := by omega
  simp [this]

theorem totalPage_int (impl : F64 → Int) (n : Nat) (perPage : Int) (hpp : 0 < perPage)
    (hn : (n : Int) < 2 ^ 63) :
    F64.toInt impl (F64.ceil (F64.div (F64.ofNat n) (.fin perPage))) =
      ((n : Int) + perPage - 1) / perPage := by
  have hne : (perPage : ℚ) ≠ 0 := by exact_mod_cast (ne_of_gt hpp)
  have hc : (⌈((n : Int) : ℚ) / (perPage : ℚ)⌉ : Int) = ((n : Int) + perPage - 1) / perPage :=
    ceil_div_int n perPage hpp
  have hq : ((n : Nat) : ℚ) = (((n : Int)) : ℚ) := by push_cast; rfl
  simp only [F64.ofNat, F64.div, hne, if_false, F64.ceil, hq, hc]
  apply toInt_intCast
  have h0 : 0 ≤ ((n : Int) + perPage - 1) / perPage :=
    Int.ediv_nonneg (by omega) (le_of_lt hpp)
  have h1 : ((n : Int) + perPage - 1) / perPage ≤ n := by
    rcases Nat.eq_zero_or_pos n with hz | hz
    · subst hz
      have : ((0 : Nat) : Int) + perPage - 1 = perPage - 1 := by simp
      rw [this, Int.ediv_eq_zero_of_lt (by omega) (by omega)]
      simp
    · apply Int.ediv_le_of_le_mul hpp
      have h1n : (1 : Int) ≤ n := by exact_mod_cast hz
      nlinarith [mul_nonneg (sub_nonneg.mpr h1n) (sub_nonneg.mpr (show (1 : Int) ≤ perPage by omega))]
  exact ⟨by omega, by omega⟩

theorem total_int (impl : F64 → Int) (n : Nat) (hn : (n : Int) < 2 ^ 63) :
    F64.toInt impl (F64.ofNat n) = n := by
  have hq : ((n : Nat) : ℚ) = (((n : Int)) : ℚ) := by push_cast; rfl
  simp only [F64.ofNat, hq]
  exact toInt_intCast impl ⟨by omega, hn⟩

theorem inspect_past_end (impl : F64 → Int) (store : List RequestStat) (pg : Pagination)
    (page perPage : Int) (hpp : 0 < perPage) (hoff : (store.length : Int) < (page - 1) * perPage)
    (hsum : (page - 1) * perPage + perPage < 2 ^ 63) :
    inspect impl store pg (.int page) (.int perPage) =
      .fault (inspectHead impl store pg (.fin page) (.fin perPage)) := by
  rcases inspect_cases impl store pg (.int page) (.int perPage) with ⟨_, h⟩ | ⟨d, hd, _⟩
  · exact h
  · exfalso
    simp only [QueryValue.int, queryFloat, offsetOf_int] at hd
    have hneg : ¬ (page - 1) * perPage < 0 := by omega
    rw [if_neg hneg, toInt_intCast impl (⟨by omega, by omega⟩ : inInt64 ((page - 1) * perPage)),
      toInt_intCast impl (⟨by omega, by omega⟩ : inInt64 perPage),
      paginate_past_end store _ _ hoff (le_of_lt hpp) hsum] at hd
    cases hd

theorem inspect_in_range (impl : F64 → Int) (store : List RequestStat) (pg : Pagination)
    (page perPage : Int) (hpp : 0 < perPage)
    (hoff : (if (page - 1) * perPage < 0 then 0 else (page - 1) * perPage) ≤ (store.length : Int))
    (hsum : (store.length : Int) + perPage < 2 ^ 63) :
    ∃ pv, inspect impl store pg (.int page) (.int perPage) = .done pv ∧
      pv.Data = (store.drop
        (if (page - 1) * perPage < 0 then 0 else (page - 1) * perPage).toNat).take
          perPage.toNat := by
  apply inspect_done_data
  simp only [QueryValue.int, queryFloat, offsetOf_int]
  have h0 : 0 ≤ (if (page - 1) * perPage < 0 then 0 else (page - 1) * perPage) := by
    split <;> omega
  rw [toInt_intCast impl (⟨by omega, by omega⟩ :
      inInt64 (if (page - 1) * perPage < 0 then 0 else (page - 1) * perPage)),
    toInt_intCast impl (⟨by omega, by omega⟩ : inInt64 perPage)]
  exact paginate_in_range store _ _ h0 hoff (le_of_lt hpp) (by omega)

theorem inspectLinks_flags (pg : Pagination) (hp : pg.HasPrev = false) (hn : pg.HasNext = false) :
    ((inspectLinks pg).HasPrev = true ↔ pg.CurrentPage > 1) ∧
    ((inspectLinks pg).HasNext = true ↔ pg.CurrentPage < pg.TotalPage) ∧
    ((inspectLinks pg).HasPrev = true → (inspectLinks pg).PrevPageUrl =
      pageUrl inspectorPath (wrap64 (pg.CurrentPage - 1)) pg.PerPage) ∧
    ((inspectLinks pg).HasNext = true → (inspectLinks pg).NextPageUrl =
      pageUrl inspectorPath (wrap64 (pg.CurrentPage + 1)) pg.PerPage) := by
  unfold inspectLinks
  by_cases h1 : pg.CurrentPage > 1 <;> by_cases h2 : pg.CurrentPage < pg.TotalPage <;>
    simp [h1, h2, hp, hn]

theorem pageUrl_inspector (p pp : Int) :
    pageUrl inspectorPath p pp = "/_inspector?page=" ++ itoa p ++ "&per_page=" ++ itoa pp := by
  unfold pageUrl inspectorPath
  have : "/_inspector" ++ "?page=" = "/_inspector?page=" := by decide
  rw [this]

/-! ## Pagination: the claims -/

/-- C3 (code defect). With one snapshot in the store, the request
`page=2&per_page=20` has offset 20, beyond the store length 1; `paginate`
evaluates `s[20:]`, which panics, so the request ends in a fault instead of
returning an empty data slice. The platform conversion plays no part. -/
theorem C3_out_of_range_page_faults (impl : F64 → Int) :
    inspect impl [RequestStat.ofPath "/a"] Pagination.zero (.int 2) (.int 20) =
      .fault { Pagination.zero with Total := 1, TotalPage := 1, CurrentPage := 2, PerPage := 20 } := by
  rw [inspect_past_end impl _ _ 2 20 (by decide) (by decide) (by decide)]
  have h1 := toInt_intCast impl (by decide : inInt64 2)
  have h2 := toInt_intCast impl (by decide : inInt64 20)
  have h3 := totalPage_int impl 1 20 (by decide) (by decide)
  have h4 := total_int impl 1 (by decide)
  simp only [inspectHead, List.length_singleton, h1, h2, h3, h4, Pagination.zero]
  rfl

/-- C4 (counterexample). One snapshot, `page=1&per_page=9223372036854775808`
(`2^63`), on amd64: `total_page` is 1, so `1 <= page <= total_page`, but
`int(perPage)` is `-2^63`, `paginate` evaluates `s[0:-2^63]` and panics; the
request returns no slice of length `min(per_page, total) = 1`. -/
theorem C4_huge_per_page_faults :
    inspect amd64Conv [RequestStat.ofPath "/a"] Pagination.zero (.int 1) (.int (2 ^ 63)) =
      .fault { Pagination.zero with
        Total := 1, TotalPage := 1, CurrentPage := 1, PerPage := -(2 ^ 63) } := by
  decide!

/-- C4 (amended). For a store of at most 2^53 snapshots, an integer
`per_page` in `(0, 2^53]` and an integer `page` with `1 <= page <= total_page`, the request
completes and its data slice has length
`min(per_page, total - (page-1)*per_page)`, which is non-negative. -/
theorem C4_page_length (impl : F64 → Int) (store : List RequestStat) (pg : Pagination)
    (page perPage : Int) (hpp : 0 < perPage) (hppb : perPage ≤ 2 ^ 53)
    (hs : (store.length : Int) ≤ 2 ^ 53) (h1 : 1 ≤ page)
    (h2 : page ≤ (inspect impl store pg (.int page) (.int perPage)).state.TotalPage) :
    ∃ pv, inspect impl store pg (.int page) (.int perPage) = .done pv ∧
      (pv.Data.length : Int) = min perPage ((store.length : Int) - (page - 1) * perPage) ∧
      0 ≤ min perPage ((store.length : Int) - (page - 1) * perPage) := by
  have hT := (inspect_state_fields impl store pg (.int page) (.int perPage)).2.2.1
  have hq : queryFloat (.fin 20) (.int perPage) = .fin perPage := rfl
  rw [hq] at hT
  rw [totalPage_int impl store.length perPage hpp (by omega)] at hT
  rw [hT] at h2
  have hmul : ((store.length : Int) + perPage - 1) / perPage * perPage ≤
      (store.length : Int) + perPage - 1 := Int.ediv_mul_le _ (ne_of_gt hpp)
  have hoff : (page - 1) * perPage < store.length := by nlinarith
  have hoff0 : 0 ≤ (page - 1) * perPage := mul_nonneg (by omega) (le_of_lt hpp)
  have hneg : ¬ (page - 1) * perPage < 0 := by omega
  obtain ⟨pv, hpv, hd⟩ := inspect_in_range impl store pg page perPage hpp
    (by rw [if_neg hneg]; omega) (by omega)
  rw [if_neg hneg] at hd
  refine ⟨pv, hpv, ?_, ?_⟩
  · rw [hd, List.length_take, List.length_drop]
    omega
  · omega

/-- Witness of C4: three snapshots, `page=2&per_page=2`. -/
theorem C4_page_length_witness :
    ∃ pv, inspect (fun _ => 0)
        [RequestStat.ofPath "/a", RequestStat.ofPath "/b", RequestStat.ofPath "/c"]
        Pagination.zero (.int 2) (.int 2) = .done pv ∧
      (pv.Data.length : Int) = min 2 ((3 : Nat) - (2 - 1) * 2) ∧
      0 ≤ min (2 : Int) ((3 : Nat) - (2 - 1) * 2) :=
  C4_page_length (fun _ => 0)
    [RequestStat.ofPath "/a", RequestStat.ofPath "/b", RequestStat.ofPath "/c"]
    Pagination.zero 2 2 (by decide) (by decide) (by decide) (by decide) (by decide!)

/-- C5 (counterexample). One snapshot and a `per_page` beyond the range of
float64, such as 1 followed by 400 zeros: `ParseFloat` gives `+Inf`,
`total / perPage` is 0 and `total_page` is 0, while
`ceil(total / per_page)` is 1. -/
theorem C5_per_page_beyond_float64 :
    (inspect (fun _ => 0) [RequestStat.ofPath "/a"] Pagination.zero .absent
      (.numeric .posInf)).state.TotalPage = 0 ∧
    ⌈(1 : ℚ) / (10 : ℚ) ^ 400⌉ = 1 := by
  decide!

/-- C5 (amended). For a store of at most 2^53 snapshots and an integer
`per_page` in
`(0, 2^53]`, whatever the `page` parameter, the request leaves
`total_page = ceil(total / per_page) = (total + per_page - 1) div per_page`,
which is 0 for the empty store, and `total` equal to the store length. -/
theorem C5_total_page (impl : F64 → Int) (store : List RequestStat) (pg : Pagination)
    (pageQ : QueryValue) (perPage : Int) (hpp : 0 < perPage) (hppb : perPage ≤ 2 ^ 53)
    (hs : (store.length : Int) ≤ 2 ^ 53) :
    (inspect impl store pg pageQ (.int perPage)).state.TotalPage =
      ⌈((store.length : Int) : ℚ) / (perPage : ℚ)⌉ ∧
    (inspect impl store pg pageQ (.int perPage)).state.TotalPage =
      ((store.length : Int) + perPage - 1) / perPage ∧
    (store = [] → (inspect impl store pg pageQ (.int perPage)).state.TotalPage = 0) ∧
    (inspect impl store pg pageQ (.int perPage)).state.Total = store.length := by
  obtain ⟨_, _, hT, hN⟩ := inspect_state_fields impl store pg pageQ (.int perPage)
  have hq : queryFloat (.fin 20) (.int perPage) = .fin perPage := rfl
  rw [hq] at hT
  rw [totalPage_int impl store.length perPage hpp (by omega)] at hT
  rw [total_int impl store.length (by omega)] at hN
  refine ⟨?_, hT, ?_, hN⟩
  · rw [hT, ceil_div_int _ _ hpp]
  · intro he
    rw [hT, he]
    simp only [List.length_nil, Int.Nat.cast_ofNat_Int, zero_add]
    exact Int.ediv_eq_zero_of_lt (by omega) (by omega)

/-- Witness of C5: three snapshots, `per_page=2`. -/
theorem C5_total_page_witness :
    (inspect (fun _ => 0)
        [RequestStat.ofPath "/a", RequestStat.ofPath "/b", RequestStat.ofPath "/c"]
        Pagination.zero .absent (.int 2)).state.TotalPage = ((3 : Nat) + 2 - 1) / 2 :=
  (C5_total_page (fun _ => 0)
    [RequestStat.ofPath "/a", RequestStat.ofPath "/b", RequestStat.ofPath "/c"]
    Pagination.zero .absent 2 (by decide) (by decide) (by decide)).2.1

/-- C6 (counterexample). A `page` whose text is not a number gives
`current_page = 0`, not 1, and a `per_page` whose text is not a number gives
`per_page = 0`, not 20. -/
theorem C6_malformed_gives_zero :
    (inspect (fun _ => 0) [RequestStat.ofPath "/a"] Pagination.zero .malformed .absent).state.CurrentPage = 0 ∧
    (inspect (fun _ => 0) [RequestStat.ofPath "/a"] Pagination.zero .absent .malformed).state.PerPage = 0 := by
  decide!

/-- C6 (amended). The defaults 1 and 20 apply when the key is absent from
the query; a parameter whose text is not a number is taken as 0, so the
request leaves `current_page = 0` for such a `page` and `per_page = 0` for such
a `per_page`. -/
theorem C6_defaults_only_when_absent (impl : F64 → Int) (store : List RequestStat)
    (pg : Pagination) (q : QueryValue) :
    (inspect impl store pg .absent q).state.CurrentPage = 1 ∧
    (inspect impl store pg q .absent).state.PerPage = 20 ∧
    (inspect impl store pg .malformed q).state.CurrentPage = 0 ∧
    (inspect impl store pg q .malformed).state.PerPage = 0 := by
  have h0 := toInt_intCast impl (by decide : inInt64 0)
  have h1 := toInt_intCast impl (by decide : inInt64 1)
  have h20 := toInt_intCast impl (by decide : inInt64 20)
  simp only [Int.cast_zero, Int.cast_one, Int.cast_ofNat] at h0 h1 h20
  refine ⟨?_, ?_, ?_, ?_⟩
  · rw [(inspect_state_fields impl store pg .absent q).1]; exact h1
  · rw [(inspect_state_fields impl store pg q .absent).2.1]; exact h20
  · rw [(inspect_state_fields impl store pg .malformed q).1]; exact h0
  · rw [(inspect_state_fields impl store pg q .malformed).2.1]; exact h0

/-- C7 (counterexample). The requests `page=0&per_page=20` and
`page=-3&per_page=20` leave `current_page = 0` and `current_page = -3`,
not 1. -/
theorem C7_nonpositive_page_kept :
    (inspect (fun _ => 0) [RequestStat.ofPath "/a"] Pagination.zero (.int 0) (.int 20)).state.CurrentPage = 0 ∧
    (inspect (fun _ => 0) [RequestStat.ofPath "/a"] Pagination.zero (.int (-3)) (.int 20)).state.CurrentPage = -3 := by
  decide!

/-- C7 (amended). For an integer `page` with `-2^53 <= page <= 0`, the
request leaves `current_page` equal to `page` itself; only the offset is
floored at 0. -/
theorem C7_current_page_is_page (impl : F64 → Int) (store : List RequestStat)
    (pg : Pagination) (page : Int) (perPageQ : QueryValue) (hp : page ≤ 0)
    (hpb : -(2 ^ 53) ≤ page) :
    (inspect impl store pg (.int page) perPageQ).state.CurrentPage = page := by
  rw [(inspect_state_fields impl store pg (.int page) perPageQ).1]
  show F64.toInt impl (.fin page) = page
  exact toInt_intCast impl ⟨by omega, by omega⟩

/-- Witness of C7 (amended) at `page = -3`. -/
theorem C7_current_page_is_page_witness :
    (inspect (fun _ => 0) [] Pagination.zero (.int (-3)) .absent).state.CurrentPage = -3 :=
  C7_current_page_is_page (fun _ => 0) [] Pagination.zero (-3) .absent (by decide) (by decide)

/-- C8 (counterexample). One snapshot, `page=0&per_page=9223372036854775808`
(`2^63`), on amd64: the offset is 0, but `int(perPage)` is `-2^63` and
`paginate` panics on `s[0:-2^63]`; the request fails and returns no data. -/
theorem C8_huge_per_page_faults :
    inspect amd64Conv [RequestStat.ofPath "/a"] Pagination.zero (.int 0) (.int (2 ^ 63)) =
      .fault { Pagination.zero with
        Total := 1, TotalPage := 1, CurrentPage := 0, PerPage := -(2 ^ 63) } := by
  decide!

/-- C8 (amended). For a store of at most 2^53 snapshots, an integer
`page <= 0` and an integer `per_page` in `(0, 2^53]`,
the offset used is 0, the request completes, and its data is the first
`min(per_page, total)` snapshots of the store, in store order. -/
theorem C8_nonpositive_page_first_page (impl : F64 → Int) (store : List RequestStat)
    (pg : Pagination) (page perPage : Int) (hp : page ≤ 0) (hpp : 0 < perPage)
    (hppb : perPage ≤ 2 ^ 53) (hs : (store.length : Int) ≤ 2 ^ 53) :
    F64.toInt impl (offsetOf (.fin page) (.fin perPage)) = 0 ∧
    ∃ pv, inspect impl store pg (.int page) (.int perPage) = .done pv ∧
      pv.Data = store.take perPage.toNat ∧
      (pv.Data.length : Int) = min perPage store.length := by
  have hneg : (page - 1) * perPage < 0 := by nlinarith
  constructor
  · rw [offsetOf_int, if_pos hneg]
    exact toInt_intCast impl (by decide)
  · obtain ⟨pv, hpv, hd⟩ := inspect_in_range impl store pg page perPage hpp
      (by rw [if_pos hneg]; omega) (by omega)
    rw [if_pos hneg] at hd
    simp only [Int.toNat_zero, List.drop_zero] at hd
    refine ⟨pv, hpv, hd, ?_⟩
    rw [hd, List.length_take]
    omega

/-- Witness of C8: three snapshots, `page=-1&per_page=2`. -/
theorem C8_nonpositive_page_first_page_witness :
    ∃ pv, inspect (fun _ => 0)
        [RequestStat.ofPath "/a", RequestStat.ofPath "/b", RequestStat.ofPath "/c"]
        Pagination.zero (.int (-1)) (.int 2) = .done pv ∧
      pv.Data = [RequestStat.ofPath "/a", RequestStat.ofPath "/b"] ∧
      (pv.Data.length : Int) = min 2 (3 : Nat) :=
  (C8_nonpositive_page_first_page (fun _ => 0)
    [RequestStat.ofPath "/a", RequestStat.ofPath "/b", RequestStat.ofPath "/c"]
    Pagination.zero (-1) 2 (by decide) (by decide) (by decide) (by decide)).2

/-- C9 (code defect). The handler resets `HasNext` and `HasPrev` on every
request but never clears the two links. With two snapshots, after
`page=1&per_page=1` then `page=2&per_page=1` the value has `has_next = false`
with `next_page_url` still the link written by the first request, although
the second request alone leaves it empty; and after `page=2&per_page=1` then
`page=1&per_page=1` it has `has_prev = false` with a non-empty
`prev_page_url`. -/
theorem C9_stale_links :
    (inspectAll (fun _ => 0) [RequestStat.ofPath "/a", RequestStat.ofPath "/b"]
        Pagination.zero [(.int 1, .int 1), (.int 2, .int 1)]).HasNext = false ∧
    (inspectAll (fun _ => 0) [RequestStat.ofPath "/a", RequestStat.ofPath "/b"]
        Pagination.zero [(.int 1, .int 1), (.int 2, .int 1)]).NextPageUrl =
      "/_inspector?page=2&per_page=1" ∧
    (inspectAll (fun _ => 0) [RequestStat.ofPath "/a", RequestStat.ofPath "/b"]
        Pagination.zero [(.int 2, .int 1)]).NextPageUrl = "" ∧
    (inspectAll (fun _ => 0) [RequestStat.ofPath "/a", RequestStat.ofPath "/b"]
        Pagination.zero [(.int 2, .int 1), (.int 1, .int 1)]).HasPrev = false ∧
    (inspectAll (fun _ => 0) [RequestStat.ofPath "/a", RequestStat.ofPath "/b"]
        Pagination.zero [(.int 2, .int 1), (.int 1, .int 1)]).PrevPageUrl =
      "/_inspector?page=1&per_page=1" := by
  decide!

/-- C10 (code defect). With one snapshot, the request `page=2&per_page=20`
panics in `paginate` (the defect of C3) after the flags were reset and before
the two `if` statements run: the value it leaves, which `GetPaginator`
returns, has `current_page = 2` and `has_prev = false`, although
`current_page > 1`. -/
theorem C10_fault_leaves_has_prev_unset (impl : F64 → Int) :
    (inspect impl [RequestStat.ofPath "/a"] Pagination.zero (.int 2) (.int 20)).state.CurrentPage
      = 2 ∧
    (inspect impl [RequestStat.ofPath "/a"] Pagination.zero (.int 2) (.int 20)).state.HasPrev
      = false := by
  rw [inspect_past_end impl _ _ 2 20 (by decide) (by decide) (by decide)]
  have h1 := toInt_intCast impl (by decide : inInt64 2)
  simp only [Int.cast_ofNat] at h1
  simp [Outcome.state, inspectHead, h1]

/-- In the value returned by an inspection request that completes,
`has_prev` holds iff `current_page > 1`, `has_next` holds iff
`current_page < total_page`, and when a flag holds its link is
`/_inspector?page=<p>&per_page=<per_page>` with `p = current_page - 1` for
the previous and `p = current_page + 1` for the next page. -/
theorem done_flags_and_links (impl : F64 → Int) (store : List RequestStat) (pg : Pagination)
    (pageQ perPageQ : QueryValue) (pv : Pagination)
    (h : inspect impl store pg pageQ perPageQ = .done pv) :
    (pv.HasPrev = true ↔ pv.CurrentPage > 1) ∧
    (pv.HasNext = true ↔ pv.CurrentPage < pv.TotalPage) ∧
    (pv.HasPrev = true → pv.PrevPageUrl =
      "/_inspector?page=" ++ itoa (pv.CurrentPage - 1) ++ "&per_page=" ++ itoa pv.PerPage) ∧
    (pv.HasNext = true → pv.NextPageUrl =
      "/_inspector?page=" ++ itoa (pv.CurrentPage + 1) ++ "&per_page=" ++ itoa pv.PerPage) := by
  rcases inspect_cases impl store pg pageQ perPageQ with ⟨_, h0⟩ | ⟨d, _, h1⟩
  · rw [h0] at h; cases h
  · rw [h1] at h
    injection h with h
    generalize hx : ({ inspectHead impl store pg (queryFloat (.fin 1) pageQ)
      (queryFloat (.fin 20) perPageQ) with Data := d } : Pagination) = x at h
    have hx1 : x.HasPrev = false := by rw [← hx]; rfl
    have hx2 : x.HasNext = false := by rw [← hx]; rfl
    have hc : inInt64 x.CurrentPage := by
      rw [← hx]; exact inInt64_toInt impl _
    have ht : inInt64 x.TotalPage := by
      rw [← hx]; exact inInt64_toInt impl _
    subst h
    obtain ⟨f1, f2, f3, f4⟩ := inspectLinks_flags x hx1 hx2
    obtain ⟨_, g2, g3, g4, _⟩ := inspectLinks_fields x
    unfold inInt64 at hc ht
    rw [g2, g3, g4]
    refine ⟨f1, f2, ?_, ?_⟩
    · intro hp
      have hgt := f1.mp hp
      rw [f3 hp, pageUrl_inspector, wrap64_of_inInt64 ⟨by omega, by omega⟩]
    · intro hn
      have hlt := f2.mp hn
      rw [f4 hn, pageUrl_inspector, wrap64_of_inInt64 ⟨by omega, by omega⟩]

/-- The flags of a completed request with two snapshots, `page=1&per_page=1`. -/
theorem done_flags_and_links_example :
    ((inspect (fun _ => 0) [RequestStat.ofPath "/a", RequestStat.ofPath "/b"]
        Pagination.zero (.int 1) (.int 1)).state.HasNext = true ↔
      (inspect (fun _ => 0) [RequestStat.ofPath "/a", RequestStat.ofPath "/b"]
        Pagination.zero (.int 1) (.int 1)).state.CurrentPage <
      (inspect (fun _ => 0) [RequestStat.ofPath "/a", RequestStat.ofPath "/b"]
        Pagination.zero (.int 1) (.int 1)).state.TotalPage) :=
  (done_flags_and_links (fun _ => 0) [RequestStat.ofPath "/a", RequestStat.ofPath "/b"]
    Pagination.zero (.int 1) (.int 1)
    (inspect (fun _ => 0) [RequestStat.ofPath "/a", RequestStat.ofPath "/b"]
        Pagination.zero (.int 1) (.int 1)).state (by decide!)).2.1

/-! ## The handler as a step on the store -/

theorem InspectorStats_inspect (impl : F64 → Int) (fmtG : ℚ → String) (lib : Lib) (st : State)
    (req : Request) (h : req.Path = inspectorPath) :
    (InspectorStats impl fmtG lib st req).state.1.allRequests = st.allRequests ∧
    (InspectorStats impl fmtG lib st req).state.1.pagination =
      (inspect impl st.allRequests st.pagination (queryValue lib req.Query "page")
        (queryValue lib req.Query "per_page")).state := by
  unfold InspectorStats
  rw [if_pos h]
  cases inspect impl st.allRequests st.pagination (queryValue lib req.Query "page")
      (queryValue lib req.Query "per_page") <;> simp [Outcome.state]

theorem InspectorStats_capture (impl : F64 → Int) (fmtG : ℚ → String) (lib : Lib) (st : State)
    (req : Request) (h : req.Path ≠ inspectorPath) :
    InspectorStats impl fmtG lib st req =
      .done ({ st with allRequests := snapshotOf fmtG lib req :: st.allRequests },
        afterCapture lib req) := by
  unfold InspectorStats
  rw [if_neg h]

theorem handleAll_store (impl : F64 → Int) (fmtG : ℚ → String) (lib : Lib)
    (reqs : List Request) (st : State) :
    ∃ newer, (handleAll impl fmtG lib st reqs).allRequests = newer ++ st.allRequests := by
  induction reqs generalizing st with
  | nil => exact ⟨[], rfl⟩
  | cons req rest ih =>
    obtain ⟨newer, hn⟩ := ih (InspectorStats impl fmtG lib st req).state.1
    by_cases h : req.Path = inspectorPath
    · refine ⟨newer, ?_⟩
      show (handleAll impl fmtG lib (InspectorStats impl fmtG lib st req).state.1 rest).allRequests
        = _
      rw [hn, (InspectorStats_inspect impl fmtG lib st req h).1]
    · refine ⟨newer ++ [snapshotOf fmtG lib req], ?_⟩
      show (handleAll impl fmtG lib (InspectorStats impl fmtG lib st req).state.1 rest).allRequests
        = _
      rw [hn, InspectorStats_capture impl fmtG lib st req h]
      simp [Outcome.state]

theorem handleAll_captures (impl : F64 → Int) (fmtG : ℚ → String) (lib : Lib)
    (reqs : List Request) (st : State) (h : ∀ r ∈ reqs, r.Path ≠ inspectorPath) :
    (handleAll impl fmtG lib st reqs).allRequests =
      (reqs.map (snapshotOf fmtG lib)).reverse ++ st.allRequests ∧
    (handleAll impl fmtG lib st reqs).pagination = st.pagination := by
  induction reqs generalizing st with
  | nil => exact ⟨rfl, rfl⟩
  | cons req rest ih =>
    have hreq : req.Path ≠ inspectorPath := h req (List.mem_cons_self _ _)
    have hrest : ∀ r ∈ rest, r.Path ≠ inspectorPath :=
      fun r hr => h r (List.mem_cons_of_mem _ hr)
    have hi := ih (InspectorStats impl fmtG lib st req).state.1 hrest
    rw [InspectorStats_capture impl fmtG lib st req hreq] at hi
    simp only [Outcome.state] at hi
    constructor
    · show (handleAll impl fmtG lib (InspectorStats impl fmtG lib st req).state.1 rest).allRequests
        = _
      rw [InspectorStats_capture impl fmtG lib st req hreq]
      simp only [Outcome.state]
      rw [hi.1]
      simp
    · show (handleAll impl fmtG lib (InspectorStats impl fmtG lib st req).state.1 rest).pagination
        = _
      rw [InspectorStats_capture impl fmtG lib st req hreq]
      simp only [Outcome.state]
      rw [hi.2]

/-- C11 (counterexample). One captured request, then the inspection request
`page=1&per_page=9223372036854775808` (`2^63 >= N = 1`), on amd64:
`int(perPage)` is `-2^63`, `paginate` panics, and no snapshot is returned. -/
theorem C11_huge_per_page_faults :
    (InspectorStats amd64Conv (fun _ => "") hugeLib
      (handleAll amd64Conv (fun _ => "") hugeLib State.init
        [Request.simple "/x" "GET" .other []])
      (Request.inspection "1" "9223372036854775808")).completed = false ∧
    (InspectorStats amd64Conv (fun _ => "") hugeLib
      (handleAll amd64Conv (fun _ => "") hugeLib State.init
        [Request.simple "/x" "GET" .other []])
      (Request.inspection "1" "9223372036854775808")).state.1.pagination.Data = [] := by
  decide!

/-- C11 (amended). From the empty store, after `N >= 1` requests to paths
other than
`/_inspector`, handled in the order `r1 .. rN`, an inspection request with
`page = 1` and an integer `per_page` with `N <= per_page <= 2^53` completes and
returns exactly the `N` snapshots, newest first: `data[i]` is the snapshot of
the request at position `N - 1 - i` of the list. -/
theorem C11_newest_first (impl : F64 → Int) (fmtG : ℚ → String) (lib : Lib)
    (rs : List Request) (q : Request) (perPage : Int)
    (hrs : ∀ r ∈ rs, r.Path ≠ inspectorPath) (hN : 1 ≤ rs.length)
    (hpp : (rs.length : Int) ≤ perPage) (hppb : perPage ≤ 2 ^ 53)
    (hq : q.Path = inspectorPath)
    (hpage : queryValue lib q.Query "page" = .int 1)
    (hper : queryValue lib q.Query "per_page" = .int perPage) :
    ∃ st, InspectorStats impl fmtG lib (handleAll impl fmtG lib State.init rs) q = .done (st, q) ∧
      st.pagination.Data = (rs.map (snapshotOf fmtG lib)).reverse ∧
      st.pagination.Data.length = rs.length ∧
      ∀ i, i < rs.length →
        st.pagination.Data[i]? = (rs[rs.length - 1 - i]?).map (snapshotOf fmtG lib) := by
  obtain ⟨hstore, _⟩ := handleAll_captures impl fmtG lib rs State.init hrs
  rw [show State.init.allRequests = [] from rfl, List.append_nil] at hstore
  have hlen : (handleAll impl fmtG lib State.init rs).allRequests.length = rs.length := by
    rw [hstore]; simp
  obtain ⟨pv, hpv, hd⟩ := inspect_in_range impl
    (handleAll impl fmtG lib State.init rs).allRequests
    (handleAll impl fmtG lib State.init rs).pagination 1 perPage (by omega)
    (by simp) (by rw [hlen]; omega)
  have hd2 : pv.Data = (rs.map (snapshotOf fmtG lib)).reverse := by
    rw [hd]
    simp only [sub_self, zero_mul, lt_self_iff_false, if_false, Int.toNat_zero, List.drop_zero]
    rw [List.take_of_length_le (by rw [hlen]; omega), hstore]
  refine ⟨{ handleAll impl fmtG lib State.init rs with pagination := pv }, ?_, hd2, ?_, ?_⟩
  · unfold InspectorStats
    rw [if_pos hq, hpage, hper, hpv]
  · show pv.Data.length = rs.length
    rw [hd2]; simp
  · intro i hi
    show pv.Data[i]? = _
    rw [hd2, List.getElem?_reverse (by simpa using hi)]
    simp [List.getElem?_map]

/-- Witness of C11: two captured requests, then `page=1&per_page=5`. -/
theorem C11_newest_first_witness :
    ∃ st, InspectorStats (fun _ => 0) (fun _ => "") tinyLib
        (handleAll (fun _ => 0) (fun _ => "") tinyLib State.init
          [Request.simple "/x" "POST" .other [97], Request.simple "/y" "GET" .other []])
        (Request.inspection "1" "5") = .done (st, Request.inspection "1" "5") ∧
      st.pagination.Data =
        ([Request.simple "/x" "POST" .other [97], Request.simple "/y" "GET" .other []].map
          (snapshotOf (fun _ => "") tinyLib)).reverse ∧
      st.pagination.Data.length = 2 ∧
      ∀ i, i < 2 → st.pagination.Data[i]? =
        ([Request.simple "/x" "POST" .other [97],
          Request.simple "/y" "GET" .other []][2 - 1 - i]?).map
          (snapshotOf (fun _ => "") tinyLib) :=
  C11_newest_first (fun _ => 0) (fun _ => "") tinyLib
    [Request.simple "/x" "POST" .other [97], Request.simple "/y" "GET" .other []]
    (Request.inspection "1" "5") 5 (by decide) (by decide) (by decide) (by decide) (by decide)
    (by decide!) (by decide!)

/-- C12. A handled request to `/_inspector` leaves the store unchanged; a
handled request to any other path turns the store `s` into `snapshot :: s`;
so a request never shortens the store, and after any run of requests the
store is the earlier store with newer snapshots in front of it. -/
theorem C12_store_steps (impl : F64 → Int) (fmtG : ℚ → String) (lib : Lib) (st : State)
    (req : Request) (reqs : List Request) :
    (req.Path = inspectorPath →
      (InspectorStats impl fmtG lib st req).state.1.allRequests = st.allRequests) ∧
    (req.Path ≠ inspectorPath →
      (InspectorStats impl fmtG lib st req).state.1.allRequests =
        snapshotOf fmtG lib req :: st.allRequests) ∧
    st.allRequests.length ≤ (InspectorStats impl fmtG lib st req).state.1.allRequests.length ∧
    (∃ newer, (handleAll impl fmtG lib st reqs).allRequests = newer ++ st.allRequests) ∧
    st.allRequests.length ≤ (handleAll impl fmtG lib st reqs).allRequests.length := by
  have h1 : req.Path = inspectorPath →
      (InspectorStats impl fmtG lib st req).state.1.allRequests = st.allRequests :=
    fun h => (InspectorStats_inspect impl fmtG lib st req h).1
  have h2 : req.Path ≠ inspectorPath →
      (InspectorStats impl fmtG lib st req).state.1.allRequests =
        snapshotOf fmtG lib req :: st.allRequests := by
    intro h
    rw [InspectorStats_capture impl fmtG lib st req h]
    rfl
  obtain ⟨newer, hn⟩ := handleAll_store impl fmtG lib reqs st
  refine ⟨h1, h2, ?_, ⟨newer, hn⟩, ?_⟩
  · by_cases h : req.Path = inspectorPath
    · rw [h1 h]
    · rw [h2 h]; simp
  · rw [hn]; simp

/-- C14 (code defect). A POST request of type
`application/x-www-form-urlencoded` with body `a=1` to a path other than
`/_inspector`: the call of `ParseForm` reads the body before the capture saves
it, so the capture reads and restores nothing, and the request passed on has
an empty body, not `a=1`. -/
theorem C14_form_body_consumed (impl : F64 → Int) (fmtG : ℚ → String)
    (parseFloat : String → Option F64) (parseQuery : List UInt8 → Values)
    (readForm : Int → List UInt8 → Option Values × Nat)
    (unmarshal : List UInt8 → Option (List (String × JSON))) :
    (InspectorStats impl fmtG (netLib parseFloat parseQuery readForm unmarshal) State.init
      (Request.simple "/x" "POST" .formUrlencoded [97, 61, 49])).state.2.Body = some [] := by
  rw [InspectorStats_capture _ _ _ _ _ (by decide)]
  rfl

/-! ## Pagination: bounds, pages and the domain of `paginate` -/

theorem flatten_chunks (s : List RequestStat) (p n : Nat) :
    ((List.range n).map (fun i => (s.drop (i * p)).take p)).flatten = s.take (n * p) := by
  induction n with
  | zero => simp
  | succ n ih =>
    rw [List.range_succ, List.map_append, List.flatten_append, ih]
    simp only [List.map_cons, List.map_nil, List.flatten_cons, List.flatten_nil, List.append_nil]
    rw [Nat.succ_mul, List.take_add]

/-- C18 (counterexample). One snapshot and `per_page=9223372036854775808`
(`2^63`), on amd64: `total_page` is 1 and the request for page 1 panics, so
the data of the pages `1 .. total_page` is empty, not the store. -/
theorem C18_huge_per_page_faults :
    (inspect amd64Conv [RequestStat.ofPath "/a"] Pagination.zero
      (.int 1) (.int (2 ^ 63))).state.TotalPage = 1 ∧
    ((List.range 1).map (fun i => (inspect amd64Conv [RequestStat.ofPath "/a"]
      Pagination.zero (.int (i + 1)) (.int (2 ^ 63))).state.Data)).flatten = [] := by
  decide!

/-- C18 (amended). For a store of at most 2^53 snapshots and an integer
`per_page` in
`(0, 2^53]`, the requests for pages `1, 2, ..., total_page`, each on whatever
value the previous request left, all complete, and their data slices
concatenated in that order are exactly the store. -/
theorem C18_pages_cover_store (impl : F64 → Int) (store : List RequestStat)
    (pgs : Nat → Pagination) (perPage : Int) (hpp : 0 < perPage) (hppb : perPage ≤ 2 ^ 53)
    (hs : (store.length : Int) ≤ 2 ^ 53) :
    (∀ i, i < (((store.length : Int) + perPage - 1) / perPage).toNat →
      (inspect impl store (pgs i) (.int (i + 1)) (.int perPage)).completed = true) ∧
    ((List.range (((store.length : Int) + perPage - 1) / perPage).toNat).map
      (fun i => (inspect impl store (pgs i) (.int (i + 1)) (.int perPage)).state.Data)).flatten
      = store := by
  have hT0 : 0 ≤ ((store.length : Int) + perPage - 1) / perPage :=
    Int.ediv_nonneg (by omega) (le_of_lt hpp)
  have hmul : ((store.length : Int) + perPage - 1) / perPage * perPage ≤
      (store.length : Int) + perPage - 1 := Int.ediv_mul_le _ (ne_of_gt hpp)
  have hmul2 : (store.length : Int) ≤ ((store.length : Int) + perPage - 1) / perPage * perPage := by
    have hr := Int.emod_lt_of_pos ((store.length : Int) + perPage - 1) hpp
    have hd := Int.ediv_add_emod ((store.length : Int) + perPage - 1) perPage
    nlinarith
  have hpage : ∀ i, i < (((store.length : Int) + perPage - 1) / perPage).toNat →
      ∃ pv, inspect impl store (pgs i) (.int (i + 1)) (.int perPage) = .done pv ∧
        pv.Data = (store.drop (i * perPage.toNat)).take perPage.toNat := by
    intro i hi
    have hi2 : ((i : Int) + 1) ≤ ((store.length : Int) + perPage - 1) / perPage := by omega
    have hoff : ((i : Int) + 1 - 1) * perPage < store.length := by nlinarith
    have hoff0 : 0 ≤ ((i : Int) + 1 - 1) * perPage :=
      mul_nonneg (by omega) (le_of_lt hpp)
    have hneg : ¬ ((i : Int) + 1 - 1) * perPage < 0 := by omega
    obtain ⟨pv, hpv, hd⟩ := inspect_in_range impl store (pgs i) (i + 1) perPage hpp
      (by rw [if_neg hneg]; omega) (by omega)
    rw [if_neg hneg] at hd
    refine ⟨pv, hpv, ?_⟩
    rw [hd]
    congr 2
    have : ((i : Int) + 1 - 1) * perPage = ((i * perPage.toNat : Nat) : Int) := by
      push_cast
      rw [Int.toNat_of_nonneg (le_of_lt hpp)]
      ring
    rw [this, Int.toNat_ofNat]
  constructor
  · intro i hi
    obtain ⟨pv, hpv, _⟩ := hpage i hi
    rw [hpv]; rfl
  · have hmap : (List.range (((store.length : Int) + perPage - 1) / perPage).toNat).map
        (fun i => (inspect impl store (pgs i) (.int (i + 1)) (.int perPage)).state.Data) =
        (List.range (((store.length : Int) + perPage - 1) / perPage).toNat).map
        (fun i => (store.drop (i * perPage.toNat)).take perPage.toNat) := by
      apply List.map_congr_left
      intro i hi
      obtain ⟨pv, hpv, hd⟩ := hpage i (List.mem_range.mp hi)
      rw [hpv]
      exact hd
    rw [hmap, flatten_chunks]
    apply List.take_of_length_le
    have h1 : ((((store.length : Int) + perPage - 1) / perPage).toNat * perPage.toNat : Nat) =
        (((store.length : Int) + perPage - 1) / perPage * perPage : Int) := by
      push_cast
      rw [Int.toNat_of_nonneg hT0, Int.toNat_of_nonneg (le_of_lt hpp)]
    omega

/-- Witness of C18: three snapshots, `per_page=2`, pages 1 and 2. -/
theorem C18_pages_cover_store_witness :
    ((List.range ((((3 : Nat) : Int) + 2 - 1) / 2).toNat).map
      (fun i => (inspect (fun _ => 0)
        [RequestStat.ofPath "/a", RequestStat.ofPath "/b", RequestStat.ofPath "/c"]
        Pagination.zero (.int (i + 1)) (.int 2)).state.Data)).flatten
      = [RequestStat.ofPath "/a", RequestStat.ofPath "/b", RequestStat.ofPath "/c"] :=
  (C18_pages_cover_store (fun _ => 0)
    [RequestStat.ofPath "/a", RequestStat.ofPath "/b", RequestStat.ofPath "/c"]
    (fun _ => Pagination.zero) 2 (by decide) (by decide) (by decide)).2

/-- C19. When `offset + length` does not overflow, `paginate(s, offset, length)`
is defined exactly when `0 <= offset <= len(s)` and `length >= 0`, and then it
returns the elements of `s` at the indices from `offset` up to
`min(offset + length, len(s)) - 1`, in order. -/
theorem C19_paginate_domain (s : List RequestStat) (offset length : Int)
    (hsum : inInt64 (offset + length)) :
    ((paginate s offset length).isSome = true ↔
      (0 ≤ offset ∧ offset ≤ s.length ∧ 0 ≤ length)) ∧
    ((0 ≤ offset ∧ offset ≤ s.length ∧ 0 ≤ length) →
      ∃ d, paginate s offset length = some d ∧
        d = (s.drop offset.toNat).take (min (offset + length) s.length - offset).toNat ∧
        (d.length : Int) = min (offset + length) s.length - offset ∧
        ∀ i, i < d.length → d[i]? = s[offset.toNat + i]?) := by
  have hw : wrap64 (offset + length) = offset + length := wrap64_of_inInt64 hsum
  have hdef : (0 ≤ offset ∧ offset ≤ s.length ∧ 0 ≤ length) →
      paginate s offset length =
        some ((s.drop offset.toNat).take (min (offset + length) s.length - offset).toNat) := by
    intro hc
    unfold paginate
    simp only [hw]
    by_cases he : offset + length < s.length
    · simp only [he, if_true, slice]
      have h1 : 0 ≤ offset ∧ offset ≤ offset + length ∧ offset + length ≤ s.length := by omega
      rw [if_pos h1, min_eq_left (le_of_lt he)]
    · simp only [he, if_false, sliceFrom]
      rw [if_pos ⟨hc.1, hc.2.1⟩, min_eq_right (by omega)]
      congr 1
      symm
      apply List.take_of_length_le
      rw [List.length_drop]
      omega
  constructor
  · constructor
    · intro h
      unfold paginate at h
      simp only [hw] at h
      by_cases he : offset + length < s.length
      · simp only [he, if_true, slice] at h
        by_cases hc : 0 ≤ offset ∧ offset ≤ offset + length ∧ offset + length ≤ s.length
        · omega
        · rw [if_neg hc] at h
          cases h
      · simp only [he, if_false, sliceFrom] at h
        by_cases hc : 0 ≤ offset ∧ offset ≤ s.length
        · omega
        · rw [if_neg hc] at h
          cases h
    · intro hc
      rw [hdef hc]
      rfl
  · intro hc
    refine ⟨_, hdef hc, rfl, ?_, ?_⟩
    · rw [List.length_take, List.length_drop]
      omega
    · intro i hi
      have hi2 : i < (min (offset + length) s.length - offset).toNat := by
        rw [List.length_take] at hi
        omega
      rw [List.getElem?_take, if_pos hi2, List.getElem?_drop]

/-- Witness of C19: three snapshots, `offset = 1`, `length = 5`. -/
theorem C19_paginate_domain_witness :
    (paginate [RequestStat.ofPath "/a", RequestStat.ofPath "/b", RequestStat.ofPath "/c"]
        1 5).isSome = true ↔
      ((0 : Int) ≤ 1 ∧ (1 : Int) ≤
        [RequestStat.ofPath "/a", RequestStat.ofPath "/b", RequestStat.ofPath "/c"].length ∧
        (0 : Int) ≤ 5) :=
  (C19_paginate_domain
    [RequestStat.ofPath "/a", RequestStat.ofPath "/b", RequestStat.ofPath "/c"] 1 5
    (by decide)).1

/-! ## Flattening: collisions and value lists -/

theorem set_single (m : Values) (k : String) (v : List String) (hv : v.length = 1)
    (h : ∀ kv ∈ m, kv.2.length = 1) : ∀ kv ∈ Values.set m k v, kv.2.length = 1 := by
  induction m with
  | nil =>
    intro kv hkv
    simp only [Values.set, List.mem_singleton] at hkv
    rw [hkv]; exact hv
  | cons hd tl ih =>
    obtain ⟨k1, v1⟩ := hd
    intro kv hkv
    by_cases hk : k1 = k
    · simp only [Values.set, if_pos hk, List.mem_cons] at hkv
      rcases hkv with h1 | h1
      · rw [h1]; exact hv
      · exact h kv (List.mem_cons_of_mem _ h1)
    · simp only [Values.set, if_neg hk, List.mem_cons] at hkv
      rcases hkv with h1 | h1
      · exact h kv (by rw [h1]; exact List.mem_cons_self _ _)
      · exact ih (fun x hx => h x (List.mem_cons_of_mem _ hx)) kv h1

theorem merge_single (sub m : Values) (hs : ∀ kv ∈ sub, kv.2.length = 1)
    (h : ∀ kv ∈ m, kv.2.length = 1) : ∀ kv ∈ Values.merge m sub, kv.2.length = 1 := by
  induction sub generalizing m with
  | nil => exact h
  | cons hd tl ih =>
    have he : Values.merge m (hd :: tl) = Values.merge (Values.set m hd.1 hd.2) tl := rfl
    rw [he]
    exact ih _ (fun x hx => hs x (List.mem_cons_of_mem _ hx))
      (set_single m hd.1 hd.2 (hs hd (List.mem_cons_self _ _)) h)

mutual
theorem flattenFields_single (fmtG : ℚ → String) :
    ∀ (pfx : String) (fs : List (String × JSON)) (values : Values),
      (∀ kv ∈ values, kv.2.length = 1) →
      ∀ kv ∈ flattenFields fmtG pfx fs values, kv.2.length = 1
  | _, [], values, h => by simpa [flattenFields] using h
  | pfx, (k, v) :: rest, values, h => by
    simp only [flattenFields]
    exact flattenFields_single fmtG pfx rest _
      (flattenValue_single fmtG (fieldKey pfx k) v values h)
theorem flattenValue_single (fmtG : ℚ → String) :
    ∀ (key : String) (v : JSON) (values : Values),
      (∀ kv ∈ values, kv.2.length = 1) →
      ∀ kv ∈ flattenValue fmtG key v values, kv.2.length = 1
  | key, .obj val, values, h => by
    simp only [flattenValue]
    exact merge_single _ _
      (flattenFields_single fmtG key val [] (fun _ hx => by cases hx)) h
  | key, .arr val, values, h => by
    simp only [flattenValue]
    exact flattenItems_single fmtG key val 0 values h
  | key, .null, values, h => by
    simp only [flattenValue]; exact set_single _ _ _ rfl h
  | key, .bool b, values, h => by
    simp only [flattenValue]; exact set_single _ _ _ rfl h
  | key, .num q, values, h => by
    simp only [flattenValue]; exact set_single _ _ _ rfl h
  | key, .str s, values, h => by
    simp only [flattenValue]; exact set_single _ _ _ rfl h
theorem flattenItems_single (fmtG : ℚ → String) :
    ∀ (key : String) (items : List JSON) (i : Nat) (values : Values),
      (∀ kv ∈ values, kv.2.length = 1) →
      ∀ kv ∈ flattenItems fmtG key items i values, kv.2.length = 1
  | _, [], _, values, h => by simpa [flattenItems] using h
  | key, item :: rest, i, values, h => by
    simp only [flattenItems]
    exact flattenItems_single fmtG key rest (i + 1) _
      (flattenItem_single fmtG (arrayKey key i) item values h)
theorem flattenItem_single (fmtG : ℚ → String) :
    ∀ (akey : String) (item : JSON) (values : Values),
      (∀ kv ∈ values, kv.2.length = 1) →
      ∀ kv ∈ flattenItem fmtG akey item values, kv.2.length = 1
  | akey, .obj val, values, h => by
    simp only [flattenItem]
    exact merge_single _ _
      (flattenFields_single fmtG akey val [] (fun _ hx => by cases hx)) h
  | akey, .arr a, values, h => by
    simp only [flattenItem]; exact set_single _ _ _ rfl h
  | akey, .null, values, h => by
    simp only [flattenItem]; exact set_single _ _ _ rfl h
  | akey, .bool b, values, h => by
    simp only [flattenItem]; exact set_single _ _ _ rfl h
  | akey, .num q, values, h => by
    simp only [flattenItem]; exact set_single _ _ _ rfl h
  | akey, .str s, values, h => by
    simp only [flattenItem]; exact set_single _ _ _ rfl h
end

/-- C16. For every object tree and every prefix, every entry of the map
returned by `flattenJSONToValues` has a value list of length exactly 1. -/
theorem C16_single_values (fmtG : ℚ → String) (data : List (String × JSON)) (pfx : String) :
    ∀ kv ∈ flattenJSONToValues fmtG data pfx, kv.2.length = 1 :=
  flattenFields_single fmtG pfx data [] (fun _ hx => by cases hx)

/-- Witness of C16: the entry `c[1].d = [2]` of the flattened
`{"a": {"b": 1}, "c": [1, {"d": 2}]}`. -/
theorem C16_single_values_witness :
    (("c[1].d", ["2"]) : String × List String).2.length = 1 :=
  C16_single_values (fun _ => "") sampleAC "" ("c[1].d", ["2"]) (by decide!)

/-! ## Flattening: the prefix -/

theorem dot_append_cancel (p a b : String) (h : p ++ "." ++ a = p ++ "." ++ b) : a = b := by
  have := congrArg String.data h
  simp only [String.data_append] at this
  exact String.ext (List.append_cancel_left this)

theorem dot_append_ne_empty (p q : String) : p ++ "." ++ q ≠ "" := by
  intro h
  have := congrArg String.data h
  simp [String.data_append] at this

theorem arrayKey_ne_empty (key : String) (i : Nat) : arrayKey key i ≠ "" := by
  intro h
  have := congrArg String.data h
  simp [arrayKey, String.data_append] at this

theorem fieldKey_dot (p q k : String) (hq : q ≠ "") :
    fieldKey (p ++ "." ++ q) k = p ++ "." ++ fieldKey q k := by
  simp only [fieldKey, if_pos (dot_append_ne_empty p q), if_pos hq]
  simp only [String.append_assoc]

theorem arrayKey_dot (p key : String) (i : Nat) :
    arrayKey (p ++ "." ++ key) i = p ++ "." ++ arrayKey key i := by
  simp only [arrayKey, String.append_assoc]

theorem set_withPrefix (p : String) (m : Values) (k : String) (v : List String) :
    Values.set (withPrefix p m) (p ++ "." ++ k) v = withPrefix p (Values.set m k v) := by
  induction m with
  | nil => rfl
  | cons hd tl ih =>
    obtain ⟨k1, v1⟩ := hd
    by_cases hk : k1 = k
    · subst hk
      simp [withPrefix, Values.set]
    · have hk2 : ¬ p ++ "." ++ k1 = p ++ "." ++ k := fun h => hk (dot_append_cancel p _ _ h)
      simp only [withPrefix, List.map_cons, Values.set, if_neg hk, if_neg hk2]
      simp only [withPrefix] at ih
      rw [ih]

theorem merge_withPrefix (p : String) (sub m : Values) :
    Values.merge (withPrefix p m) (withPrefix p sub) = withPrefix p (Values.merge m sub) := by
  induction sub generalizing m with
  | nil => rfl
  | cons hd tl ih =>
    have he : Values.merge m (hd :: tl) = Values.merge (Values.set m hd.1 hd.2) tl := rfl
    have he2 : Values.merge (withPrefix p m) (withPrefix p (hd :: tl)) =
        Values.merge (Values.set (withPrefix p m) (p ++ "." ++ hd.1) hd.2) (withPrefix p tl) := rfl
    rw [he, he2, set_withPrefix, ih]

mutual
theorem flattenFields_pfx (fmtG : ℚ → String) (p : String) :
    ∀ (q : String) (fs : List (String × JSON)) (values : Values), q ≠ "" →
      flattenFields fmtG (p ++ "." ++ q) fs (withPrefix p values) =
        withPrefix p (flattenFields fmtG q fs values)
  | _, [], _, _ => by simp [flattenFields]
  | q, (k, v) :: rest, values, hq => by
    simp only [flattenFields, fieldKey_dot p q k hq]
    have hk : fieldKey q k ≠ "" := by
      simp only [fieldKey, if_pos hq]
      exact dot_append_ne_empty q k
    rw [flattenValue_pfx fmtG p (fieldKey q k) v values (Or.inl hk)]
    exact flattenFields_pfx fmtG p q rest _ hq
theorem flattenValue_pfx (fmtG : ℚ → String) (p : String) :
    ∀ (key : String) (v : JSON) (values : Values), key ≠ "" ∨ v.isObj = false →
      flattenValue fmtG (p ++ "." ++ key) v (withPrefix p values) =
        withPrefix p (flattenValue fmtG key v values)
  | key, .obj val, values, h => by
    have hk : key ≠ "" := by
      rcases h with h | h
      · exact h
      · simp [JSON.isObj] at h
    simp only [flattenValue]
    have := flattenFields_pfx fmtG p key val [] hk
    simp only [withPrefix, List.map_nil] at this
    simp only [withPrefix]
    rw [this]
    exact merge_withPrefix p _ _
  | key, .arr val, values, _ => by
    simp only [flattenValue]
    exact flattenItems_pfx fmtG p key val 0 values
  | key, .null, values, _ => by
    simp only [flattenValue]; exact set_withPrefix p _ _ _
  | key, .bool b, values, _ => by
    simp only [flattenValue]; exact set_withPrefix p _ _ _
  | key, .num q, values, _ => by
    simp only [flattenValue]; exact set_withPrefix p _ _ _
  | key, .str s, values, _ => by
    simp only [flattenValue]; exact set_withPrefix p _ _ _
theorem flattenItems_pfx (fmtG : ℚ → String) (p : String) :
    ∀ (key : String) (items : List JSON) (i : Nat) (values : Values),
      flattenItems fmtG (p ++ "." ++ key) items i (withPrefix p values) =
        withPrefix p (flattenItems fmtG key items i values)
  | _, [], _, _ => by simp [flattenItems]
  | key, item :: rest, i, values => by
    simp only [flattenItems, arrayKey_dot]
    rw [flattenItem_pfx fmtG p (arrayKey key i) item values (arrayKey_ne_empty key i)]
    exact flattenItems_pfx fmtG p key rest (i + 1) _
theorem flattenItem_pfx (fmtG : ℚ → String) (p : String) :
    ∀ (akey : String) (item : JSON) (values : Values), akey ≠ "" →
      flattenItem fmtG (p ++ "." ++ akey) item (withPrefix p values) =
        withPrefix p (flattenItem fmtG akey item values)
  | akey, .obj val, values, hk => by
    simp only [flattenItem]
    have := flattenFields_pfx fmtG p akey val [] hk
    simp only [withPrefix, List.map_nil] at this
    simp only [withPrefix]
    rw [this]
    exact merge_withPrefix p _ _
  | akey, .arr a, values, _ => by
    simp only [flattenItem]; exact set_withPrefix p _ _ _
  | akey, .null, values, _ => by
    simp only [flattenItem]; exact set_withPrefix p _ _ _
  | akey, .bool b, values, _ => by
    simp only [flattenItem]; exact set_withPrefix p _ _ _
  | akey, .num q, values, _ => by
    simp only [flattenItem]; exact set_withPrefix p _ _ _
  | akey, .str s, values, _ => by
    simp only [flattenItem]; exact set_withPrefix p _ _ _
end

theorem flattenFields_top (fmtG : ℚ → String) (p : String) (hp : p ≠ "")
    (fs : List (String × JSON)) (values : Values) (h : noEmptyObjField fs = true) :
    flattenFields fmtG p fs (withPrefix p values) =
      withPrefix p (flattenFields fmtG "" fs values) := by
  induction fs generalizing values with
  | nil => simp [flattenFields]
  | cons hd tl ih =>
    obtain ⟨k, v⟩ := hd
    simp only [noEmptyObjField, List.all_cons, Bool.and_eq_true, Bool.not_eq_true',
      Bool.and_eq_false_imp, decide_eq_true_eq] at h
    have hcond : k ≠ "" ∨ v.isObj = false := by
      by_cases hk : k = ""
      · exact Or.inr (h.1 hk)
      · exact Or.inl hk
    have h1 : fieldKey p k = p ++ "." ++ k := by simp [fieldKey, hp]
    have h2 : fieldKey "" k = k := by simp [fieldKey]
    simp only [flattenFields, h1, h2]
    rw [flattenValue_pfx fmtG p k v values hcond]
    exact ih _ (by simpa [noEmptyObjField] using h.2)

mutual
theorem leafKeysFields_ext :
    ∀ (q : String) (fs : List (String × JSON)) (x : String), x ∈ leafKeysFields q fs →
      q ≠ "" → ∃ s, x = q ++ "." ++ s
  | _, [], x, hx, _ => by simp [leafKeysFields] at hx
  | q, (k, v) :: rest, x, hx, hq => by
    simp only [leafKeysFields, List.mem_append] at hx
    rcases hx with hx | hx
    · obtain ⟨s, hs⟩ := leafKeysValue_ext (fieldKey q k) v x hx
      refine ⟨k ++ s, ?_⟩
      rw [hs]
      simp only [fieldKey, if_pos hq, String.append_assoc]
    · exact leafKeysFields_ext q rest x hx hq
theorem leafKeysValue_ext :
    ∀ (key : String) (v : JSON) (x : String), x ∈ leafKeysValue key v → ∃ s, x = key ++ s
  | key, .obj val, x, hx => by
    simp only [leafKeysValue] at hx
    by_cases hk : key = ""
    · exact ⟨x, by rw [hk, String.empty_append]⟩
    · obtain ⟨s, hs⟩ := leafKeysFields_ext key val x hx hk
      exact ⟨"." ++ s, by rw [hs, String.append_assoc]⟩
  | key, .arr val, x, hx => by
    simp only [leafKeysValue] at hx
    exact leafKeysItems_ext key val 0 x hx
  | key, .null, x, hx => by
    simp only [leafKeysValue, List.mem_singleton] at hx
    exact ⟨"", by rw [hx, String.append_empty]⟩
  | key, .bool _, x, hx => by
    simp only [leafKeysValue, List.mem_singleton] at hx
    exact ⟨"", by rw [hx, String.append_empty]⟩
  | key, .num _, x, hx => by
    simp only [leafKeysValue, List.mem_singleton] at hx
    exact ⟨"", by rw [hx, String.append_empty]⟩
  | key, .str _, x, hx => by
    simp only [leafKeysValue, List.mem_singleton] at hx
    exact ⟨"", by rw [hx, String.append_empty]⟩
theorem leafKeysItems_ext :
    ∀ (key : String) (items : List JSON) (i : Nat) (x : String),
      x ∈ leafKeysItems key items i → ∃ s, x = key ++ s
  | _, [], _, x, hx => by simp [leafKeysItems] at hx
  | key, item :: rest, i, x, hx => by
    simp only [leafKeysItems, List.mem_append] at hx
    rcases hx with hx | hx
    · obtain ⟨s, hs⟩ := leafKeysItem_ext (arrayKey key i) item x hx
      refine ⟨"[" ++ toString i ++ "]" ++ s, ?_⟩
      rw [hs]
      simp only [arrayKey, String.append_assoc]
    · exact leafKeysItems_ext key rest (i + 1) x hx
theorem leafKeysItem_ext :
    ∀ (akey : String) (item : JSON) (x : String), x ∈ leafKeysItem akey item →
      ∃ s, x = akey ++ s
  | akey, .obj val, x, hx => by
    simp only [leafKeysItem] at hx
    by_cases hk : akey = ""
    · exact ⟨x, by rw [hk, String.empty_append]⟩
    · obtain ⟨s, hs⟩ := leafKeysFields_ext akey val x hx hk
      exact ⟨"." ++ s, by rw [hs, String.append_assoc]⟩
  | akey, .arr _, x, hx => by
    simp only [leafKeysItem, List.mem_singleton] at hx
    exact ⟨"", by rw [hx, String.append_empty]⟩
  | akey, .null, x, hx => by
    simp only [leafKeysItem, List.mem_singleton] at hx
    exact ⟨"", by rw [hx, String.append_empty]⟩
  | akey, .bool _, x, hx => by
    simp only [leafKeysItem, List.mem_singleton] at hx
    exact ⟨"", by rw [hx, String.append_empty]⟩
  | akey, .num _, x, hx => by
    simp only [leafKeysItem, List.mem_singleton] at hx
    exact ⟨"", by rw [hx, String.append_empty]⟩
  | akey, .str _, x, hx => by
    simp only [leafKeysItem, List.mem_singleton] at hx
    exact ⟨"", by rw [hx, String.append_empty]⟩
end

/-- C17 (counterexample). For the object `{"": {"b": 1}}`, flattening with
the empty prefix gives the key `b`, which the replacement turns into `p.b`, but
flattening with the prefix `p` gives the key `p..b`. -/
theorem C17_empty_field_name :
    flattenJSONToValues (fun _ => "") sampleEmptyName "p" = [("p..b", ["1"])] ∧
    withPrefix "p" (flattenJSONToValues (fun _ => "") sampleEmptyName "") = [("p.b", ["1"])] := by
  decide!

/-- C17 (amended). For a non-empty prefix `p` and an object tree `d`, every
key of `flattenJSONToValues(d, p)` starts with `p + "."`; and when no field
of `d` with the empty name has an object as its value,
`flattenJSONToValues(d, p)` is `flattenJSONToValues(d, "")` with every key `k`
replaced by `p + "." + k`, the values and the order unchanged. -/
theorem C17_prefix_shift (fmtG : ℚ → String) (d : List (String × JSON)) (p : String)
    (hp : p ≠ "") :
    (noEmptyObjField d = true →
      flattenJSONToValues fmtG d p = withPrefix p (flattenJSONToValues fmtG d "")) ∧
    ∀ kv ∈ flattenJSONToValues fmtG d p, ∃ k0, kv.1 = p ++ "." ++ k0 := by
  constructor
  · intro h
    exact flattenFields_top fmtG p hp d [] h
  · intro kv hkv
    have hk : kv.1 ∈ (flattenJSONToValues fmtG d p).keys := List.mem_map_of_mem _ hkv
    rw [(flatten_keys fmtG d p).2] at hk
    exact leafKeysFields_ext p d kv.1 hk hp

/-- Witness of C17 (amended) at `{"a": {"b": 1}, "c": [1, {"d": 2}]}` and the
prefix `p`. -/
theorem C17_prefix_shift_witness :
    flattenJSONToValues (fun _ => "") sampleAC "p" =
      withPrefix "p" (flattenJSONToValues (fun _ => "") sampleAC "") :=
  (C17_prefix_shift (fun _ => "") sampleAC "p" (by decide)).1 (by decide)

/-! ## Flattening: independence of the visiting order -/

theorem lookup_set (m : Values) (k : String) (v : List String) (x : String) :
    List.lookup x (Values.set m k v) = if x = k then some v else List.lookup x m := by
  induction m with
  | nil =>
    by_cases h : x = k
    · subst h; simp [Values.set, List.lookup]
    · have hb : (x == k) = false := by simpa using h
      simp [Values.set, List.lookup, h, hb]
  | cons hd tl ih =>
    obtain ⟨k1, v1⟩ := hd
    by_cases hk : k1 = k
    · subst hk
      by_cases h : x = k1
      · subst h; simp [Values.set, List.lookup]
      · have hb : (x == k1) = false := by simpa using h
        simp [Values.set, List.lookup, h, hb]
    · by_cases h1 : x = k1
      · subst h1
        simp [Values.set, List.lookup, hk]
      · have hb : (x == k1) = false := by simpa using h1
        simp only [Values.set, if_neg hk, List.lookup, hb, ih]

theorem lookup_merge (sub m : Values) (x : String) :
    List.lookup x (Values.merge m sub) = (List.lookup x sub.reverse).or (List.lookup x m) := by
  induction sub generalizing m with
  | nil => simp [Values.merge, List.lookup]
  | cons hd tl ih =>
    have he : Values.merge m (hd :: tl) = Values.merge (Values.set m hd.1 hd.2) tl := rfl
    rw [he, ih, lookup_set, List.reverse_cons, List.lookup_append]
    by_cases h : x = hd.1
    · subst h
      cases List.lookup hd.1 tl.reverse <;> simp [List.lookup]
    · have hb : (x == hd.1) = false := by simpa using h
      cases List.lookup x tl.reverse <;> simp [List.lookup, h, hb]

theorem lookup_none_of_not_mem (l : Values) (x : String) (h : x ∉ l.keys) :
    List.lookup x l = none := by
  induction l with
  | nil => rfl
  | cons hd tl ih =>
    obtain ⟨k1, v1⟩ := hd
    simp only [Values.keys, List.map_cons, List.mem_cons, not_or] at h
    have hb : (x == k1) = false := by simpa using h.1
    simp only [List.lookup, hb]
    exact ih h.2

theorem lookup_of_mem (l : Values) (x : String) (v : List String) (hn : l.keys.Nodup)
    (h : (x, v) ∈ l) : List.lookup x l = some v := by
  induction l with
  | nil => cases h
  | cons hd tl ih =>
    obtain ⟨k1, v1⟩ := hd
    simp only [Values.keys, List.map_cons, List.nodup_cons] at hn
    rcases List.mem_cons.mp h with h1 | h1
    · injection h1 with h2 h3
      subst h2; subst h3
      simp [List.lookup]
    · have hx : x ∈ tl.map Prod.fst := List.mem_map_of_mem Prod.fst h1
      have hne : x ≠ k1 := fun he => hn.1 (he ▸ hx)
      have hb : (x == k1) = false := by simpa using hne
      simp only [List.lookup, hb]
      exact ih hn.2 h1

theorem mem_of_lookup (l : Values) (x : String) (v : List String)
    (h : List.lookup x l = some v) : (x, v) ∈ l := by
  induction l with
  | nil => cases h
  | cons hd tl ih =>
    obtain ⟨k1, v1⟩ := hd
    by_cases hk : x = k1
    · subst hk
      simp only [List.lookup, beq_self_eq_true] at h
      injection h with h
      subst h
      exact List.mem_cons_self _ _
    · have hb : (x == k1) = false := by simpa using hk
      simp only [List.lookup, hb] at h
      exact List.mem_cons_of_mem _ (ih h)

theorem lookup_perm (l1 l2 : Values) (x : String) (hn : l1.keys.Nodup)
    (hp : List.Perm l1 l2) : List.lookup x l1 = List.lookup x l2 := by
  have hn2 : l2.keys.Nodup := (hp.map Prod.fst).nodup_iff.mp hn
  cases h : List.lookup x l2 with
  | none =>
    cases h1 : List.lookup x l1 with
    | none => rfl
    | some v =>
      have := lookup_of_mem l2 x v hn2 (hp.mem_iff.mp (mem_of_lookup l1 x v h1))
      rw [h] at this
      cases this
  | some v =>
    exact lookup_of_mem l1 x v hn (hp.mem_iff.mpr (mem_of_lookup l2 x v h))

mutual
theorem entriesFields_keys (fmtG : ℚ → String) :
    ∀ (pfx : String) (fs : List (String × JSON)),
      (entriesFields fmtG pfx fs).keys = leafKeysFields pfx fs
  | _, [] => by simp [entriesFields, leafKeysFields, Values.keys]
  | pfx, (k, v) :: rest => by
    have h1 := entriesValue_keys fmtG (fieldKey pfx k) v
    have h2 := entriesFields_keys fmtG pfx rest
    simp only [Values.keys] at h1 h2
    simp only [entriesFields, leafKeysFields, Values.keys, List.map_append, h1, h2]
theorem entriesValue_keys (fmtG : ℚ → String) :
    ∀ (key : String) (v : JSON), (entriesValue fmtG key v).keys = leafKeysValue key v
  | key, .obj val => by
    simp only [entriesValue, leafKeysValue]; exact entriesFields_keys fmtG key val
  | key, .arr val => by
    simp only [entriesValue, leafKeysValue]; exact entriesItems_keys fmtG key val 0
  | _, .null => by simp [entriesValue, leafKeysValue, Values.keys]
  | _, .bool _ => by simp [entriesValue, leafKeysValue, Values.keys]
  | _, .num _ => by simp [entriesValue, leafKeysValue, Values.keys]
  | _, .str _ => by simp [entriesValue, leafKeysValue, Values.keys]
theorem entriesItems_keys (fmtG : ℚ → String) :
    ∀ (key : String) (items : List JSON) (i : Nat),
      (entriesItems fmtG key items i).keys = leafKeysItems key items i
  | _, [], _ => by simp [entriesItems, leafKeysItems, Values.keys]
  | key, item :: rest, i => by
    have h1 := entriesItem_keys fmtG (arrayKey key i) item
    have h2 := entriesItems_keys fmtG key rest (i + 1)
    simp only [Values.keys] at h1 h2
    simp only [entriesItems, leafKeysItems, Values.keys, List.map_append, h1, h2]
theorem entriesItem_keys (fmtG : ℚ → String) :
    ∀ (akey : String) (item : JSON), (entriesItem fmtG akey item).keys = leafKeysItem akey item
  | akey, .obj val => by
    simp only [entriesItem, leafKeysItem]; exact entriesFields_keys fmtG akey val
  | _, .arr _ => by simp [entriesItem, leafKeysItem, Values.keys]
  | _, .null => by simp [entriesItem, leafKeysItem, Values.keys]
  | _, .bool _ => by simp [entriesItem, leafKeysItem, Values.keys]
  | _, .num _ => by simp [entriesItem, leafKeysItem, Values.keys]
  | _, .str _ => by simp [entriesItem, leafKeysItem, Values.keys]
end

theorem lookup_single_or (key x : String) (v : List String) (values : Values) :
    (if x = key then some v else List.lookup x values) =
      (List.lookup x [(key, v)].reverse).or (List.lookup x values) := by
  by_cases h : x = key
  · subst h; simp [List.lookup]
  · have hb : (x == key) = false := by simpa using h
    simp [List.lookup, h, hb]

theorem lookup_sub (sub : Values) (x : String) (hn : sub.keys.Nodup) :
    List.lookup x sub.reverse = List.lookup x sub :=
  (lookup_perm sub sub.reverse x hn (List.reverse_perm sub).symm).symm

mutual
theorem flattenFields_lookup (fmtG : ℚ → String) (x : String) :
    ∀ (pfx : String) (fs : List (String × JSON)) (values : Values),
      List.lookup x (flattenFields fmtG pfx fs values) =
        (List.lookup x (entriesFields fmtG pfx fs).reverse).or (List.lookup x values)
  | _, [], values => by simp [flattenFields, entriesFields, List.lookup]
  | pfx, (k, v) :: rest, values => by
    simp only [flattenFields, entriesFields, List.reverse_append, List.lookup_append]
    rw [flattenFields_lookup fmtG x pfx rest _, flattenValue_lookup fmtG x (fieldKey pfx k) v values]
    cases List.lookup x (entriesFields fmtG pfx rest).reverse <;> simp
theorem flattenValue_lookup (fmtG : ℚ → String) (x : String) :
    ∀ (key : String) (v : JSON) (values : Values),
      List.lookup x (flattenValue fmtG key v values) =
        (List.lookup x (entriesValue fmtG key v).reverse).or (List.lookup x values)
  | key, .obj val, values => by
    simp only [flattenValue, entriesValue]
    rw [lookup_merge, lookup_sub _ x ((flattenFields_keys fmtG key val []).1 (by simp [Values.keys])),
      flattenFields_lookup fmtG x key val []]
    cases List.lookup x (entriesFields fmtG key val).reverse <;> simp [List.lookup]
  | key, .arr val, values => by
    simp only [flattenValue, entriesValue]
    exact flattenItems_lookup fmtG x key val 0 values
  | key, .null, values => by
    simp only [flattenValue, entriesValue, lookup_set]; exact lookup_single_or _ _ _ _
  | key, .bool b, values => by
    simp only [flattenValue, entriesValue, lookup_set]; exact lookup_single_or _ _ _ _
  | key, .num q, values => by
    simp only [flattenValue, entriesValue, lookup_set]; exact lookup_single_or _ _ _ _
  | key, .str s, values => by
    simp only [flattenValue, entriesValue, lookup_set]; exact lookup_single_or _ _ _ _
theorem flattenItems_lookup (fmtG : ℚ → String) (x : String) :
    ∀ (key : String) (items : List JSON) (i : Nat) (values : Values),
      List.lookup x (flattenItems fmtG key items i values) =
        (List.lookup x (entriesItems fmtG key items i).reverse).or (List.lookup x values)
  | _, [], _, values => by simp [flattenItems, entriesItems, List.lookup]
  | key, item :: rest, i, values => by
    simp only [flattenItems, entriesItems, List.reverse_append, List.lookup_append]
    rw [flattenItems_lookup fmtG x key rest (i + 1) _,
      flattenItem_lookup fmtG x (arrayKey key i) item values]
    cases List.lookup x (entriesItems fmtG key rest (i + 1)).reverse <;> simp
theorem flattenItem_lookup (fmtG : ℚ → String) (x : String) :
    ∀ (akey : String) (item : JSON) (values : Values),
      List.lookup x (flattenItem fmtG akey item values) =
        (List.lookup x (entriesItem fmtG akey item).reverse).or (List.lookup x values)
  | akey, .obj val, values => by
    simp only [flattenItem, entriesItem]
    rw [lookup_merge, lookup_sub _ x ((flattenFields_keys fmtG akey val []).1 (by simp [Values.keys])),
      flattenFields_lookup fmtG x akey val []]
    cases List.lookup x (entriesFields fmtG akey val).reverse <;> simp [List.lookup]
  | akey, .arr a, values => by
    simp only [flattenItem, entriesItem, lookup_set]; exact lookup_single_or _ _ _ _
  | akey, .null, values => by
    simp only [flattenItem, entriesItem, lookup_set]; exact lookup_single_or _ _ _ _
  | akey, .bool b, values => by
    simp only [flattenItem, entriesItem, lookup_set]; exact lookup_single_or _ _ _ _
  | akey, .num q, values => by
    simp only [flattenItem, entriesItem, lookup_set]; exact lookup_single_or _ _ _ _
  | akey, .str s, values => by
    simp only [flattenItem, entriesItem, lookup_set]; exact lookup_single_or _ _ _ _
end

theorem entriesFields_cons (fmtG : ℚ → String) (pfx : String) (a : String × JSON)
    (l : List (String × JSON)) :
    entriesFields fmtG pfx (a :: l) =
      entriesValue fmtG (fieldKey pfx a.1) a.2 ++ entriesFields fmtG pfx l := by
  obtain ⟨k, v⟩ := a
  simp [entriesFields]

theorem entriesFields_perm (fmtG : ℚ → String) (pfx : String)
    (l1 l2 : List (String × JSON)) (h : List.Perm l1 l2) :
    List.Perm (entriesFields fmtG pfx l1) (entriesFields fmtG pfx l2) := by
  induction h with
  | nil => exact List.Perm.refl _
  | cons a _ ih =>
    rw [entriesFields_cons, entriesFields_cons]
    exact List.Perm.append (List.Perm.refl _) ih
  | swap a b l =>
    rw [entriesFields_cons, entriesFields_cons, entriesFields_cons, entriesFields_cons,
      ← List.append_assoc, ← List.append_assoc]
    exact List.Perm.append List.perm_append_comm (List.Perm.refl _)
  | trans _ _ ih1 ih2 => exact ih1.trans ih2

mutual
theorem entriesFields_pointwise (fmtG : ℚ → String) :
    ∀ (pfx : String) (fs m : List (String × JSON)), fieldsPointwise fs m →
      List.Perm (entriesFields fmtG pfx fs) (entriesFields fmtG pfx m)
  | _, [], m, h => by
    simp only [fieldsPointwise] at h
    rw [h]
  | pfx, (k, v) :: fs, m, h => by
    simp only [fieldsPointwise] at h
    obtain ⟨w, m1, hm, hv, hf⟩ := h
    rw [hm]
    simp only [entriesFields]
    exact List.Perm.append (entriesValue_reordered fmtG (fieldKey pfx k) v w hv)
      (entriesFields_pointwise fmtG pfx fs m1 hf)
theorem entriesValue_reordered (fmtG : ℚ → String) :
    ∀ (key : String) (v w : JSON), valueReordered v w →
      List.Perm (entriesValue fmtG key v) (entriesValue fmtG key w)
  | key, .obj fs, w, h => by
    simp only [valueReordered] at h
    obtain ⟨mid, fs1, hw, hp, hperm⟩ := h
    rw [hw]
    simp only [entriesValue]
    exact (entriesFields_pointwise fmtG key fs mid hp).trans
      (entriesFields_perm fmtG key mid fs1 hperm)
  | key, .arr xs, w, h => by
    simp only [valueReordered] at h
    obtain ⟨ys, hw, hi⟩ := h
    rw [hw]
    simp only [entriesValue]
    exact entriesItems_reordered fmtG key xs ys 0 hi
  | _, .null, w, h => by
    simp only [valueReordered] at h; rw [h]
  | _, .bool _, w, h => by
    simp only [valueReordered] at h; rw [h]
  | _, .num _, w, h => by
    simp only [valueReordered] at h; rw [h]
  | _, .str _, w, h => by
    simp only [valueReordered] at h; rw [h]
theorem entriesItems_reordered (fmtG : ℚ → String) :
    ∀ (key : String) (xs ys : List JSON) (i : Nat), itemsReordered xs ys →
      List.Perm (entriesItems fmtG key xs i) (entriesItems fmtG key ys i)
  | _, [], ys, _, h => by
    simp only [itemsReordered] at h
    rw [h]
  | key, x :: xs, m, i, h => by
    simp only [itemsReordered] at h
    obtain ⟨y, ys, hm, hx, hr⟩ := h
    rw [hm]
    simp only [entriesItems]
    exact List.Perm.append (entriesItem_reordered fmtG (arrayKey key i) x y hx)
      (entriesItems_reordered fmtG key xs ys (i + 1) hr)
theorem entriesItem_reordered (fmtG : ℚ → String) :
    ∀ (akey : String) (v w : JSON), itemReordered v w →
      List.Perm (entriesItem fmtG akey v) (entriesItem fmtG akey w)
  | akey, .obj fs, w, h => by
    simp only [itemReordered] at h
    obtain ⟨mid, fs1, hw, hp, hperm⟩ := h
    rw [hw]
    simp only [entriesItem]
    exact (entriesFields_pointwise fmtG akey fs mid hp).trans
      (entriesFields_perm fmtG akey mid fs1 hperm)
  | _, .arr _, w, h => by
    simp only [itemReordered] at h; rw [h]
  | _, .null, w, h => by
    simp only [itemReordered] at h; rw [h]
  | _, .bool _, w, h => by
    simp only [itemReordered] at h; rw [h]
  | _, .num _, w, h => by
    simp only [itemReordered] at h; rw [h]
  | _, .str _, w, h => by
    simp only [itemReordered] at h; rw [h]
end

mutual
theorem fieldsPointwise_refl : ∀ fs : List (String × JSON), fieldsPointwise fs fs
  | [] => by simp [fieldsPointwise]
  | (k, v) :: fs => by
    simp only [fieldsPointwise]
    exact ⟨v, fs, rfl, valueReordered_refl v, fieldsPointwise_refl fs⟩
theorem valueReordered_refl : ∀ v : JSON, valueReordered v v
  | .obj fs => by
    simp only [valueReordered]
    exact ⟨fs, fs, rfl, fieldsPointwise_refl fs, List.Perm.refl _⟩
  | .arr xs => by
    simp only [valueReordered]
    exact ⟨xs, rfl, itemsReordered_refl xs⟩
  | .null => by simp [valueReordered]
  | .bool _ => by simp [valueReordered]
  | .num _ => by simp [valueReordered]
  | .str _ => by simp [valueReordered]
theorem itemsReordered_refl : ∀ xs : List JSON, itemsReordered xs xs
  | [] => by simp [itemsReordered]
  | x :: xs => by
    simp only [itemsReordered]
    exact ⟨x, xs, rfl, itemReordered_refl x, itemsReordered_refl xs⟩
theorem itemReordered_refl : ∀ v : JSON, itemReordered v v
  | .obj fs => by
    simp only [itemReordered]
    exact ⟨fs, fs, rfl, fieldsPointwise_refl fs, List.Perm.refl _⟩
  | .arr _ => by simp [itemReordered]
  | .null => by simp [itemReordered]
  | .bool _ => by simp [itemReordered]
  | .num _ => by simp [itemReordered]
  | .str _ => by simp [itemReordered]
end

/-- C20. For an object tree in which the stored keys are pairwise distinct,
flattening the tree with the fields of its objects visited in any other
order gives the same map: every key has the same value in both results. -/
theorem C20_order_independent (fmtG : ℚ → String) (d d1 : List (String × JSON))
    (hkeys : (leafKeysFields "" d).Nodup) (hre : reordered d d1) :
    ∀ k, List.lookup k (flattenJSONToValues fmtG d "") =
      List.lookup k (flattenJSONToValues fmtG d1 "") := by
  intro k
  obtain ⟨mid, hp, hperm⟩ := hre
  have hE : List.Perm (entriesFields fmtG "" d) (entriesFields fmtG "" d1) :=
    (entriesFields_pointwise fmtG "" d mid hp).trans (entriesFields_perm fmtG "" mid d1 hperm)
  have hn : (Values.keys (entriesFields fmtG "" d).reverse).Nodup := by
    have : Values.keys (entriesFields fmtG "" d).reverse = (leafKeysFields "" d).reverse := by
      rw [← entriesFields_keys fmtG "" d]
      simp [Values.keys]
    rw [this]
    exact List.nodup_reverse.mpr hkeys
  unfold flattenJSONToValues
  rw [flattenFields_lookup, flattenFields_lookup]
  rw [lookup_perm _ _ k hn (List.Perm.trans (List.reverse_perm _)
    (hE.trans (List.reverse_perm _).symm))]

/-- Witness of C20: `{"a": {"b": 1}, "c": [1, {"d": 2}]}` with `a` first
and with `c` first, at the key `c[1].d`. -/
theorem C20_order_independent_witness :
    List.lookup "c[1].d" (flattenJSONToValues (fun _ => "") sampleAC "") =
      List.lookup "c[1].d" (flattenJSONToValues (fun _ => "") sampleCA "") :=
  C20_order_independent (fun _ => "") sampleAC sampleCA (by decide)
    ⟨sampleAC, fieldsPointwise_refl sampleAC, List.Perm.swap _ _ _⟩ "c[1].d"

/-! ## Flattening: the field visited last wins -/

theorem entriesFields_append (fmtG : ℚ → String) (pfx : String)
    (a b : List (String × JSON)) :
    entriesFields fmtG pfx (a ++ b) = entriesFields fmtG pfx a ++ entriesFields fmtG pfx b := by
  induction a with
  | nil => simp [entriesFields]
  | cons hd tl ih =>
    rw [List.cons_append, entriesFields_cons, entriesFields_cons, ih, List.append_assoc]

theorem lookup_some_of_mem_keys (l : Values) (x : String) (h : x ∈ l.keys) :
    ∃ v, List.lookup x l = some v := by
  induction l with
  | nil => simp [Values.keys] at h
  | cons hd tl ih =>
    obtain ⟨k1, v1⟩ := hd
    by_cases hk : x = k1
    · subst hk
      exact ⟨v1, by simp [List.lookup]⟩
    · have hb : (x == k1) = false := by simpa using hk
      simp only [Values.keys, List.map_cons, List.mem_cons] at h
      rcases h with h | h
      · exact absurd h hk
      · obtain ⟨v, hv⟩ := ih h
        exact ⟨v, by simp only [List.lookup, hb]; exact hv⟩

/-- C15. When the fields of an object are visited in a given order and a
key `x` is produced by the field `k`, with value `v`, and by no field visited
after it, the result maps `x` to what `k` stores for it, whatever the fields
visited before stored: the field visited last wins. For the object with the
fields `a = {"b": 1}` and `a.b = 2`, which both give the key `a.b`, visiting
`a` then `a.b` yields `a.b = [2]` and visiting `a.b` then `a` yields
`a.b = [1]`. -/
theorem C15_collision_last_wins (fmtG : ℚ → String) (pfx : String)
    (before after : List (String × JSON)) (k : String) (v : JSON) (x : String)
    (hx : x ∈ leafKeysValue (fieldKey pfx k) v) (hafter : x ∉ leafKeysFields pfx after) :
    List.lookup x (flattenJSONToValues fmtG (before ++ (k, v) :: after) pfx) =
      List.lookup x (flattenValue fmtG (fieldKey pfx k) v []) ∧
    flattenJSONToValues fmtG sampleCollide "" = [("a.b", ["2"])] ∧
    flattenJSONToValues fmtG sampleCollideRev "" = [("a.b", ["1"])] := by
  refine ⟨?_, rfl, rfl⟩
  unfold flattenJSONToValues
  rw [flattenFields_lookup, flattenValue_lookup, entriesFields_append, entriesFields_cons]
  simp only [List.reverse_append, List.lookup_append]
  have h1 : List.lookup x (entriesFields fmtG pfx after).reverse = none := by
    apply lookup_none_of_not_mem
    have : Values.keys (entriesFields fmtG pfx after).reverse =
        (leafKeysFields pfx after).reverse := by
      rw [← entriesFields_keys fmtG pfx after]
      simp [Values.keys]
    rw [this]
    simpa using hafter
  have h2 : ∃ w, List.lookup x (entriesValue fmtG (fieldKey pfx k) v).reverse = some w := by
    apply lookup_some_of_mem_keys
    have : Values.keys (entriesValue fmtG (fieldKey pfx k) v).reverse =
        (leafKeysValue (fieldKey pfx k) v).reverse := by
      rw [← entriesValue_keys fmtG (fieldKey pfx k) v]
      simp [Values.keys]
    rw [this]
    simpa using hx
  obtain ⟨w, hw⟩ := h2
  rw [h1, hw]
  simp [List.lookup]

/-- Witness of C15: the key `a.b` of `{"a": {"b": 1}, "a.b": 2}` with `a`
visited first. -/
theorem C15_collision_last_wins_witness :
    List.lookup "a.b" (flattenJSONToValues (fun _ => "")
        ([("a", JSON.obj [("b", .num 1)])] ++ ("a.b", JSON.num 2) :: []) "") =
      List.lookup "a.b" (flattenValue (fun _ => "") (fieldKey "" "a.b") (.num 2) []) :=
  (C15_collision_last_wins (fun _ => "") "" [("a", JSON.obj [("b", .num 1)])] [] "a.b"
    (.num 2) "a.b" (by decide) (by decide)).1

end Inspector
